import Mathlib

/-!
Verification of the graph store and multi-criteria shortest-path engine of the
Dijkstra Travel Planner repository.

The development shallowly embeds the C++ sources:
  * `Node.hpp`, `Edge.hpp` — the data model;
  * `Graph.cpp` — the graph store (node table, edge set, adjacency index);
  * `PathFinder.cpp` — the path engine (single-pair Dijkstra with a lazy
    priority queue, an O(V^2) all-destinations variant, path reconstruction,
    metric re-walk);
  * `JsonHandler.cpp` (`jsonToGraph`) — structured import.

Modelling conventions:
  * `double` weights and distances are modelled as exact rationals `ℚ`;
    the `+infinity` sentinel used for tentative distances becomes `⊤` in
    `WithTop ℚ`.
  * `std::unordered_map` is modelled by association lists (the C++ iteration
    order is unspecified; list order stands in for it).  In
    `findShortestPath` the distance map is only ever accessed through
    `operator[]`, whose value-semantics (default-insert `0.0` for an absent
    key) is captured by a total function `String → WithTop ℚ` whose initial
    value on keys outside the node table is `0`.
  * `std::priority_queue` (a min-heap on the distance field, ties unspecified)
    is modelled by a list with an extract-min operation that takes the first
    entry of minimal distance.
  * null `shared_ptr` arguments are modelled by `Option`; stored nodes and
    edges are non-null by the store's construction, so the stored
    representations use plain values.
  * the two loops of the engine have no termination guarantee in C++ for
    arbitrary (negative-weight) inputs, so they are embedded with explicit
    fuel.  `findShortestPaths` consumes exactly one fuel per iteration and
    `getNodeCount` fuel is exact.  For `findShortestPath` the fuel
    `searchFuel` is proved sufficient for non-negative weights.
  * undefined behaviour (the out-of-bounds `path[i]` read that the metric
    loop performs when the reconstructed path is empty, because
    `path.size() - 1` wraps around in `size_t`) is modelled by `Option`:
    `findShortestPath` returns `none` exactly on that path.
-/

/-- `Node.hpp`: a node has a string identity and a display name. -/
structure Node where
  id : String
  name : String
deriving DecidableEq, Repr

/-- `Edge.hpp`: a directed edge with three independent weight scalars.
The C++ edge stores shared pointers to its endpoint nodes; stored edges are
non-null (enforced by `Graph::addEdge`), so the model stores the nodes
directly. -/
structure Edge where
  id : String
  source : Node
  destination : Node
  weight : ℚ
  timeWeight : ℚ
  costWeight : ℚ
deriving DecidableEq, Repr

/-- `Graph.hpp`: node table, edge set and adjacency index.
The two unordered maps (`nodes_`, `adjacencyList_`) are association
structures with unique keys; they are modelled by lists, with uniqueness part
of the store invariant rather than the representation type. -/
structure Graph where
  nodes : List Node
  edges : List Edge
  adj : List (String × List Edge)
deriving DecidableEq, Repr

namespace Graph

/-- The empty graph (`Graph()` default constructor / state after `clear()`). -/
def empty : Graph := ⟨[], [], []⟩

/-- `Graph::getNode`: look the key up in the node table, null if absent. -/
def getNode (g : Graph) (nodeId : String) : Option Node :=
  g.nodes.find? (fun n => n.id = nodeId)

/-- `Graph::getOutgoingEdges`: the adjacency entry for the key, or the empty
list when the key is unknown. -/
def getOutgoingEdges (g : Graph) (nodeId : String) : List Edge :=
  match g.adj.find? (fun p => p.1 = nodeId) with
  | some p => p.2
  | none => []

/-- `Graph::getAllNodes`. -/
def getAllNodes (g : Graph) : List Node := g.nodes

/-- `Graph::getAllEdges`. -/
def getAllEdges (g : Graph) : List Edge := g.edges

/-- `Graph::getNodeCount`. -/
def getNodeCount (g : Graph) : Nat := g.nodes.length

/-- `Graph::getEdgeCount`. -/
def getEdgeCount (g : Graph) : Nat := g.edges.length

/-- `Graph::clear`. -/
def clear (_g : Graph) : Graph := empty

/-- `adjacencyList_[key] = value` — `operator[]` insert-or-assign used by
`Graph::addNode`. -/
def adjAssign (l : List (String × List Edge)) (k : String) (v : List Edge) :
    List (String × List Edge) :=
  if l.any (fun p => p.1 = k) then
    l.map (fun p => if p.1 = k then (k, v) else p)
  else
    l ++ [(k, v)]

/-- `adjacencyList_[key].push_back e` — `operator[]` default-insert followed
by an append, used by `Graph::addEdge`. -/
def adjPush (l : List (String × List Edge)) (k : String) (e : Edge) :
    List (String × List Edge) :=
  if l.any (fun p => p.1 = k) then
    l.map (fun p => if p.1 = k then (p.1, p.2 ++ [e]) else p)
  else
    l ++ [(k, [e])]

/-- `adjacencyList_[key]` updated in place by removing every edge with the
given edge id — `operator[]` default-insert followed by erase/remove_if, used
by `Graph::removeEdge`. -/
def adjEraseId (l : List (String × List Edge)) (k : String) (edgeId : String) :
    List (String × List Edge) :=
  if l.any (fun p => p.1 = k) then
    l.map (fun p => if p.1 = k then (p.1, p.2.filter (fun e => ¬ e.id = edgeId)) else p)
  else
    l ++ [(k, [])]

/-- `Graph::addNode`: rejects a null pointer or a duplicate key; otherwise
inserts the node and creates/overwrites its (empty) adjacency entry. -/
def addNode (g : Graph) (node : Option Node) : Graph × Bool :=
  match node with
  | none => (g, false)
  | some n =>
    if (g.getNode n.id).isSome then (g, false)
    else ({ nodes := g.nodes ++ [n], edges := g.edges, adj := adjAssign g.adj n.id [] }, true)

/-- `Graph::removeNode`: fails if the key is absent; otherwise removes every
edge touching the key from the edge set, erases the key's adjacency entry,
removes edges pointing to the key from all remaining adjacency lists, and
removes the node. -/
def removeNode (g : Graph) (nodeId : String) : Graph × Bool :=
  if (g.getNode nodeId).isSome then
    ({ nodes := g.nodes.eraseP (fun n => n.id = nodeId),
       edges := g.edges.filter
         (fun e => ¬ (e.source.id = nodeId ∨ e.destination.id = nodeId)),
       adj := (g.adj.eraseP (fun p => p.1 = nodeId)).map
         (fun p => (p.1, p.2.filter (fun e => ¬ e.destination.id = nodeId))) },
     true)
  else (g, false)

/-- `Graph::addEdge`: rejects a null pointer, a missing endpoint key or a
duplicate edge id; otherwise appends to the edge set and to the source's
adjacency list.  (The C++ null checks on the endpoint pointers are vacuous
here because the model's edges carry their endpoints directly.) -/
def addEdge (g : Graph) (edge : Option Edge) : Graph × Bool :=
  match edge with
  | none => (g, false)
  | some e =>
    if (g.getNode e.source.id).isNone ∨ (g.getNode e.destination.id).isNone then (g, false)
    else if g.edges.any (fun x => x.id = e.id) then (g, false)
    else ({ nodes := g.nodes, edges := g.edges ++ [e], adj := adjPush g.adj e.source.id e },
          true)

/-- `Graph::removeEdge`: fails if no edge has the id; otherwise removes the
id from the source's adjacency list and erases the (first) matching edge from
the edge set. -/
def removeEdge (g : Graph) (edgeId : String) : Graph × Bool :=
  match g.edges.find? (fun e => e.id = edgeId) with
  | none => (g, false)
  | some e =>
    ({ nodes := g.nodes,
       edges := g.edges.eraseP (fun x => x.id = edgeId),
       adj := adjEraseId g.adj e.source.id edgeId },
     true)

end Graph

/-- `PathResult` (PathFinder.hpp): found flag, node-key path and the three raw
aggregate totals; default-constructed all-zero / not-found. -/
structure PathResult where
  found : Bool
  path : List String
  totalDistance : ℚ
  totalTime : ℚ
  totalCost : ℚ
deriving DecidableEq, Repr

namespace PathFinder

/-- The default-constructed `PathResult`. -/
def emptyResult : PathResult :=
  { found := false, path := [], totalDistance := 0, totalTime := 0, totalCost := 0 }

/-- `OptimizationMode` is a C++ scoped enum over `int`; values outside the
four enumerators are representable by casting, which is what the `default`
switch label is for.  The model uses the underlying numeral. -/
def OptimizationMode := Nat

/-- `OptimizationMode::DISTANCE`. -/
def DISTANCE : Nat := 0

/-- `OptimizationMode::TIME`. -/
def TIME : Nat := 1

/-- `OptimizationMode::COST`. -/
def COST : Nat := 2

/-- `OptimizationMode::BALANCED`. -/
def BALANCED : Nat := 3

/-- `PathFinder::getEdgeWeight`: the per-edge score under a mode.  The
`default` label of the C++ switch returns the primary weight. -/
def getEdgeWeight (e : Edge) (mode : Nat) : ℚ :=
  match mode with
  | 0 => e.weight
  | 1 => e.timeWeight
  | 2 => e.costWeight
  | 3 => (e.weight / 100 + e.timeWeight / 5 + e.costWeight / 50) / 3
  | _ => e.weight

/-- Extract-min for the modelled priority queue: the first entry of minimal
distance, together with the remaining entries. -/
def popMin : List (String × ℚ) → Option ((String × ℚ) × List (String × ℚ))
  | [] => none
  | x :: xs =>
    match popMin xs with
    | none => some (x, [])
    | some (y, ys) => if x.2 ≤ y.2 then some (x, xs) else some (y, x :: ys)

/-- The mutable state of the `findShortestPath` loop: tentative distances,
predecessor links, priority queue. -/
structure SearchState where
  dist : String → WithTop ℚ
  pred : String → Option String
  pq : List (String × ℚ)

/-- One relaxation step (the body of the edge loop in
`PathFinder::findShortestPath`): if routing through the current node improves
the neighbour's tentative distance, update it, record the predecessor and push
the neighbour. -/
def relaxEdge (mode : Nat) (u : String) (d : ℚ) (st : SearchState) (e : Edge) :
    SearchState :=
  let v := e.destination.id
  let nd := d + getEdgeWeight e mode
  if (nd : WithTop ℚ) < st.dist v then
    { dist := fun x => if x = v then (nd : WithTop ℚ) else st.dist x,
      pred := fun x => if x = v then some u else st.pred x,
      pq := st.pq ++ [(v, nd)] }
  else st

/-- Relax every outgoing edge of the current node. -/
def relaxAll (mode : Nat) (u : String) (d : ℚ) (st : SearchState) (es : List Edge) :
    SearchState :=
  es.foldl (fun s e => relaxEdge mode u d s e) st

/-- The main loop of `PathFinder::findShortestPath`: pop the minimum, stop on
the destination, skip stale entries, otherwise relax the outgoing edges.  The
fuel models the C++ `while (!pq.empty())`, which has no a-priori bound (and
does not terminate on negative cycles); `searchFuel` is proved sufficient for
non-negative weights. -/
def dijkstraLoop (g : Graph) (dest : String) (mode : Nat) :
    Nat → SearchState → SearchState
  | 0, st => st
  | fuel + 1, st =>
    match popMin st.pq with
    | none => st
    | some ((u, d), rest) =>
      if u = dest then { st with pq := rest }
      else if (d : WithTop ℚ) > st.dist u then
        dijkstraLoop g dest mode fuel { st with pq := rest }
      else
        dijkstraLoop g dest mode fuel
          (relaxAll mode u d { st with pq := rest } (g.getOutgoingEdges u))

/-- The walk of `PathFinder::reconstructPath`: push the current node, stop
successfully at the source, clear everything on a missing predecessor link.
Fuel-exhaustion (an infinite predecessor cycle, which cannot arise from the
search) also yields the empty list. -/
def reconGo (pred : String → Option String) (source : String) :
    Nat → String → List String → List String
  | 0, _, _ => []
  | fuel + 1, cur, acc =>
    let acc' := acc ++ [cur]
    if cur = source then acc'
    else
      match pred cur with
      | none => []
      | some u => reconGo pred source fuel u acc'

/-- `PathFinder::reconstructPath`: walk the predecessor links backward from
the destination, then reverse. -/
def reconstructPath (fuel : Nat) (pred : String → Option String)
    (source destination : String) : List String :=
  (reconGo pred source fuel destination []).reverse

/-- The first edge of the adjacency list connecting two consecutive path
nodes (`std::find_if` in the metric loop). -/
def firstEdgeTo (g : Graph) (u v : String) : Option Edge :=
  (g.getOutgoingEdges u).find? (fun e => e.destination.id = v)

/-- The tail of `PathFinder::findShortestPath` (lines 83–113): re-walk the
reconstructed path edge-by-edge against the live graph, accumulating the three
raw totals, and assemble the found result.  The C++ loop runs
`i < path.size() - 1` in `size_t`; for an empty path the bound wraps around
and `path[0]` is read out of bounds — that undefined behaviour is `none`. -/
def finishSearch (g : Graph) (path : List String) : Option PathResult :=
  if path = [] then none
  else
    let totals :=
      (path.zip path.tail).foldl
        (fun (acc : ℚ × ℚ × ℚ) uv =>
          match firstEdgeTo g uv.1 uv.2 with
          | some e => (acc.1 + e.weight, acc.2.1 + e.timeWeight, acc.2.2 + e.costWeight)
          | none => acc)
        (0, 0, 0)
    some { found := true, path := path, totalDistance := totals.1,
           totalTime := totals.2.1, totalCost := totals.2.2 }

/-- The total length of all adjacency lists. -/
def adjTotal (g : Graph) : Nat := (g.adj.map (fun p => p.2.length)).sum

/-- Fuel for the search loop; proved sufficient for non-negative weights. -/
def searchFuel (g : Graph) : Nat := g.getNodeCount + adjTotal g + 2

/-- Fuel for the reconstruction walk; a predecessor chain of the search never
repeats a node, so `getNodeCount + 1` steps always reach the source. -/
def reconFuel (g : Graph) : Nat := g.getNodeCount + 1

/-- The initial search state: every known node at `+infinity` except the
source at `0` (keys outside the node table read as the `operator[]` default
`0.0`), no predecessors, the source queued at distance `0`. -/
def initState (g : Graph) (source : String) : SearchState :=
  { dist := fun v =>
      if g.nodes.any (fun n => n.id = v) then
        (if v = source then ((0 : ℚ) : WithTop ℚ) else ⊤)
      else ((0 : ℚ) : WithTop ℚ),
    pred := fun _ => none,
    pq := [(source, 0)] }

/-- `PathFinder::findShortestPath`. -/
def findShortestPath (g : Graph) (source destination : String) (mode : Nat) :
    Option PathResult :=
  if (g.getNode source).isNone ∨ (g.getNode destination).isNone then some emptyResult
  else
    let st := dijkstraLoop g destination mode (searchFuel g) (initState g source)
    if st.dist destination = ⊤ then some emptyResult
    else finishSearch g (reconstructPath (reconFuel g) st.pred source destination)

/-- The distance map of `findShortestPaths`; unlike the single-pair loop this
map is iterated over (the minimum scan), so it is modelled by an association
list in insertion order. -/
def DistMap := List (String × WithTop ℚ)

/-- `distances[k]` as an rvalue: `operator[]` returns the stored value, or
default-inserts `0.0` for an absent key. -/
def dGet (m : List (String × WithTop ℚ)) (k : String) :
    WithTop ℚ × List (String × WithTop ℚ) :=
  match m.find? (fun p => p.1 = k) with
  | some p => (p.2, m)
  | none => (((0 : ℚ) : WithTop ℚ), m ++ [(k, ((0 : ℚ) : WithTop ℚ))])

/-- `distances[k] = v`: update the entry, or insert it for an absent key. -/
def dSet (m : List (String × WithTop ℚ)) (k : String) (v : WithTop ℚ) :
    List (String × WithTop ℚ) :=
  if m.any (fun p => p.1 = k) then
    m.map (fun p => if p.1 = k then (k, v) else p)
  else m ++ [(k, v)]

/-- The linear minimum scan of `findShortestPaths`: the unprocessed entry of
strictly smallest distance (first wins on ties), starting from
`minDist = +infinity` — so no entry is returned when every unprocessed
distance is infinite. -/
def scanMin (m : List (String × WithTop ℚ)) (processed : List String) :
    String × WithTop ℚ :=
  m.foldl
    (fun best p =>
      if ¬ processed.contains p.1 ∧ p.2 < best.2 then (p.1, p.2) else best)
    ("", ⊤)

/-- The body executed for one outgoing edge of the selected node in
`findShortestPaths`: skip processed neighbours, otherwise relax. -/
def fspRelax (mode : Nat) (minNode : String) (processed : List String)
    (m : List (String × WithTop ℚ)) (e : Edge) : List (String × WithTop ℚ) :=
  let v := e.destination.id
  if processed.contains v then m
  else
    let w := getEdgeWeight e mode
    let dm := dGet m minNode
    let nd := dm.1 + (w : WithTop ℚ)
    let dv := dGet dm.2 v
    if nd < dv.1 then dSet dv.2 v nd else dv.2

/-- The `while (processed.size() < getNodeCount())` loop of
`findShortestPaths`.  Every iteration inserts one new node into `processed`,
so `getNodeCount` fuel is exact. -/
def fspLoop (g : Graph) (mode : Nat) :
    Nat → List (String × WithTop ℚ) → List String → List (String × WithTop ℚ)
  | 0, m, _ => m
  | fuel + 1, m, processed =>
    if processed.length < g.getNodeCount then
      let best := scanMin m processed
      if best.2 = ⊤ then m
      else
        let m' := (g.getOutgoingEdges best.1).foldl
          (fun acc e => fspRelax mode best.1 (best.1 :: processed) acc e) m
        fspLoop g mode fuel m' (best.1 :: processed)
    else m

/-- `PathFinder::findShortestPaths`: the O(V^2) all-destinations variant. -/
def findShortestPaths (g : Graph) (source : String) (mode : Nat) :
    List (String × WithTop ℚ) :=
  if (g.getNode source).isNone then []
  else
    let init := g.nodes.foldl
      (fun m n =>
        dSet m n.id (if n.id = source then ((0 : ℚ) : WithTop ℚ) else ⊤))
      []
    fspLoop g mode g.getNodeCount init []

end PathFinder

/-- A node record of the structured import format: `id` is required, `name`
defaults to the empty string (`nodeJson.value("name", "")`). -/
structure JsonNode where
  id : String
  name : Option String
deriving DecidableEq, Repr

/-- An edge record of the structured import format: id, endpoint keys and the
required primary weight; the secondary and tertiary weights are optional
(`if (edgeJson.contains(...))`). -/
structure JsonEdge where
  id : String
  source : String
  destination : String
  weight : ℚ
  timeWeight : Option ℚ
  costWeight : Option ℚ
deriving DecidableEq, Repr

/-- The structured record a graph is imported from: a list of node records
and a list of edge records. -/
structure JsonGraph where
  nodes : List JsonNode
  edges : List JsonEdge
deriving DecidableEq, Repr

namespace JsonHandler

/-- `JsonHandler::jsonToGraph`: add every node record, then every edge record
whose endpoints resolve to already-imported nodes; an absent optional weight
field leaves the `Edge` default `0.0` in place. -/
def jsonToGraph (j : JsonGraph) : Graph :=
  let g1 := j.nodes.foldl
    (fun g jn => (g.addNode (some ⟨jn.id, jn.name.getD ""⟩)).1) Graph.empty
  j.edges.foldl
    (fun g je =>
      match g.getNode je.source, g.getNode je.destination with
      | some sn, some dn =>
        (g.addEdge (some
          { id := je.id, source := sn, destination := dn, weight := je.weight,
            timeWeight := je.timeWeight.getD 0,
            costWeight := je.costWeight.getD 0 })).1
      | _, _ => g)
    g1

end JsonHandler

/-!
## Specification-side definitions

These definitions are not translated from the code; they state properties the
code is compared against.
-/

/-- Stated from the specification's error-handling taxonomy, for comparison
with the code's `getEdgeWeight`: a mode outside the enumerated set
`{DISTANCE, TIME, COST, BALANCED}` is a caller-side contract violation and
the weight function faults (`none`) instead of producing a score. -/
def getEdgeWeightChecked (e : Edge) (mode : Nat) : Option ℚ :=
  if mode = PathFinder.DISTANCE ∨ mode = PathFinder.TIME ∨
      mode = PathFinder.COST ∨ mode = PathFinder.BALANCED then
    some (PathFinder.getEdgeWeight e mode)
  else none

/-!
## Concrete test fixtures

The four-city graph of the specification's Scenario A, built through the
public mutation interface.
-/

/-- Scenario A node NYC. -/
def nodeNYC : Node := ⟨"NYC", "New York"⟩

/-- Scenario A node BOS. -/
def nodeBOS : Node := ⟨"BOS", "Boston"⟩

/-- Scenario A node PHL. -/
def nodePHL : Node := ⟨"PHL", "Philadelphia"⟩

/-- Scenario A node DC. -/
def nodeDC : Node := ⟨"DC", "Washington"⟩

/-- Scenario A graph: nodes NYC, BOS, PHL, DC; edges NYC→BOS (306, 4.5, 50),
NYC→PHL (153, 2.0, 25), PHL→DC (225, 3.0, 35), BOS→NYC (306, 4.5, 50). -/
def scenarioA : Graph :=
  let g1 := (Graph.empty.addNode (some nodeNYC)).1
  let g2 := (g1.addNode (some nodeBOS)).1
  let g3 := (g2.addNode (some nodePHL)).1
  let g4 := (g3.addNode (some nodeDC)).1
  let g5 := (g4.addEdge (some ⟨"e1", nodeNYC, nodeBOS, 306, 9/2, 50⟩)).1
  let g6 := (g5.addEdge (some ⟨"e2", nodeNYC, nodePHL, 153, 2, 25⟩)).1
  let g7 := (g6.addEdge (some ⟨"e3", nodePHL, nodeDC, 225, 3, 35⟩)).1
  (g7.addEdge (some ⟨"e4", nodeBOS, nodeNYC, 306, 9/2, 50⟩)).1

/-- A concrete edge used to exercise the weight function. -/
def sampleEdge : Edge := ⟨"s1", nodeNYC, nodeBOS, 3, 7, 11⟩

/-!
## C2 — behaviour of `getEdgeWeight` outside the enumerated modes
-/

/-- C2 counterexample: at the out-of-range mode value `4`, the specification
demands a hard fault (`getEdgeWeightChecked` gives `none`), but the code's
`getEdgeWeight` does not fault — its `default` switch label proceeds with the
edge's primary weight (here `3`) as a guessed default. -/
theorem C2_counterexample :
    getEdgeWeightChecked sampleEdge 4 = none ∧
      PathFinder.getEdgeWeight sampleEdge 4 = sampleEdge.weight := by
  constructor <;> rfl

/-- C2 (amended): for every edge and every mode value outside the enumerated
set `{0, 1, 2, 3}`, `getEdgeWeight` does not raise a fault; the `default`
branch of the switch returns the edge's primary (distance) weight. -/
theorem C2_default_weight (e : Edge) (mode : Nat) (h : 4 ≤ mode) :
    PathFinder.getEdgeWeight e mode = e.weight := by
  obtain ⟨k, rfl⟩ : ∃ k, mode = k + 4 := ⟨mode - 4, by omega⟩
  rfl

/-- Witness for `C2_default_weight` at mode value `7`. -/
theorem C2_default_weight_witness :
    4 ≤ 7 ∧ PathFinder.getEdgeWeight sampleEdge 7 = sampleEdge.weight :=
  ⟨by decide, C2_default_weight sampleEdge 7 (by decide)⟩

/-!
## C5 — Scenario A
-/

unseal Rat.add Rat.mul Rat.inv in
/-- C5: on the Scenario A graph, `findShortestPath(NYC, DC, DISTANCE)`
returns found, path `[NYC, PHL, DC]`, totalDistance 378, totalTime 5.0,
totalCost 60. -/
theorem C5_scenarioA :
    PathFinder.findShortestPath scenarioA "NYC" "DC" PathFinder.DISTANCE =
      some { found := true, path := ["NYC", "PHL", "DC"],
             totalDistance := 378, totalTime := 5, totalCost := 60 } := by
  decide

/-!
## C10 — trivial query: source equals destination
-/

/-- C10: when source and destination coincide and name a node of the graph,
the query succeeds with the single-node path and all three totals zero.  The
search pops the source first, hits the early-exit, and the reconstruction
walk stops immediately at the source. -/
theorem C10_source_eq_destination (g : Graph) (s : String) (mode : Nat)
    (h : (g.getNode s).isSome) :
    PathFinder.findShortestPath g s s mode =
      some { found := true, path := [s], totalDistance := 0,
             totalTime := 0, totalCost := 0 } := by
  obtain ⟨n, hn⟩ := Option.isSome_iff_exists.mp h
  have hn' : g.nodes.find? (fun m => m.id = s) = some n := hn
  have hpn := List.find?_some hn'
  have hmn := List.mem_of_find?_eq_some hn'
  have hany : (g.nodes.any fun m => m.id = s) = true :=
    List.any_eq_true.mpr ⟨n, hmn, hpn⟩
  have hfuel : PathFinder.searchFuel g = (g.getNodeCount + PathFinder.adjTotal g + 1) + 1 :=
    rfl
  have hrfuel : PathFinder.reconFuel g = g.getNodeCount + 1 := rfl
  unfold PathFinder.findShortestPath
  simp only [hn, Option.isNone_some, Bool.false_eq_true, or_self, if_false, ite_false]
  rw [hfuel, hrfuel]
  simp [PathFinder.dijkstraLoop, PathFinder.popMin, PathFinder.initState, hany,
    PathFinder.reconstructPath, PathFinder.reconGo, PathFinder.finishSearch]

/-- Witness for `C10_source_eq_destination` on the Scenario A graph. -/
theorem C10_source_eq_destination_witness :
    (scenarioA.getNode "NYC").isSome ∧
      PathFinder.findShortestPath scenarioA "NYC" "NYC" 0 =
        some { found := true, path := ["NYC"], totalDistance := 0,
               totalTime := 0, totalCost := 0 } :=
  ⟨by decide, C10_source_eq_destination scenarioA "NYC" 0 (by decide)⟩

/-!
## C9 — import tolerance
-/

/-- Adding nodes never adds edges. -/
theorem foldl_addNode_edges (l : List JsonNode) (g : Graph) :
    (l.foldl (fun g jn => (g.addNode (some ⟨jn.id, jn.name.getD ""⟩)).1) g).edges = g.edges := by
  induction l generalizing g with
  | nil => rfl
  | cons jn rest ih =>
    rw [List.foldl_cons, ih]
    unfold Graph.addNode
    by_cases h : (g.getNode jn.id).isSome
    · simp [h]
    · simp [h]

/-- Every node of the accumulated import graph is an original node or one of
the imported records. -/
theorem foldl_addNode_nodes (l : List JsonNode) (g : Graph) :
    ∀ n ∈ (l.foldl (fun g jn => (g.addNode (some ⟨jn.id, jn.name.getD ""⟩)).1) g).nodes,
      n ∈ g.nodes ∨ n.id ∈ l.map JsonNode.id := by
  induction l generalizing g with
  | nil => exact fun n hn => Or.inl hn
  | cons jn rest ih =>
    intro n hn
    rw [List.foldl_cons] at hn
    rcases ih _ n hn with hmem | hid
    · unfold Graph.addNode at hmem
      by_cases h : (g.getNode jn.id).isSome
      · simp [h] at hmem
        exact Or.inl hmem
      · simp [h] at hmem
        rcases hmem with hmem | rfl
        · exact Or.inl hmem
        · exact Or.inr (by simp)
    · exact Or.inr (by simp [hid])

/-- `addEdge` never changes the node table. -/
theorem Graph.addEdge_nodes (g : Graph) (x : Option Edge) :
    ((g.addEdge x).1).nodes = g.nodes := by
  cases x with
  | none => rfl
  | some e =>
    show (if (g.getNode e.source.id).isNone ∨ (g.getNode e.destination.id).isNone
        then (g, false)
        else if g.edges.any (fun y => y.id = e.id) then (g, false)
        else ({ nodes := g.nodes, edges := g.edges ++ [e],
                adj := Graph.adjPush g.adj e.source.id e }, true)).1.nodes = g.nodes
    split
    · rfl
    · split <;> rfl

/-- The edge set after `addEdge` is contained in the old set plus the new edge. -/
theorem Graph.mem_addEdge_edges {g : Graph} {x e : Edge}
    (h : e ∈ ((g.addEdge (some x)).1).edges) : e ∈ g.edges ∨ e = x := by
  have h' : e ∈ (if (g.getNode x.source.id).isNone ∨ (g.getNode x.destination.id).isNone
      then (g, false)
      else if g.edges.any (fun y => y.id = x.id) then (g, false)
      else ({ nodes := g.nodes, edges := g.edges ++ [x],
              adj := Graph.adjPush g.adj x.source.id x }, true)).1.edges := h
  split at h'
  · exact Or.inl h'
  · split at h'
    · exact Or.inl h'
    · rcases List.mem_append.mp h' with h'' | h''
      · exact Or.inl h''
      · exact Or.inr (List.mem_singleton.mp h'')

/-- Adding edges never changes the node table (import fold form). -/
theorem foldl_estep_nodes (l : List JsonEdge) (g : Graph) :
    (l.foldl (fun g je =>
      match g.getNode je.source, g.getNode je.destination with
      | some sn, some dn =>
        (g.addEdge (some
          { id := je.id, source := sn, destination := dn, weight := je.weight,
            timeWeight := je.timeWeight.getD 0,
            costWeight := je.costWeight.getD 0 })).1
      | _, _ => g) g).nodes = g.nodes := by
  induction l generalizing g with
  | nil => rfl
  | cons je rest ih =>
    rw [List.foldl_cons, ih]
    cases hs : g.getNode je.source with
    | none => rfl
    | some sn =>
      cases hd : g.getNode je.destination with
      | none => rfl
      | some dn => exact Graph.addEdge_nodes g _

/-- Every edge accumulated by the import fold is an original edge or arises
from an edge record whose endpoints resolved among the graph's nodes. -/
theorem foldl_estep_edges (nids : List String) (l : List JsonEdge) (g : Graph)
    (hnodes : ∀ n ∈ g.nodes, n.id ∈ nids) :
    ∀ e ∈ (l.foldl (fun g je =>
      match g.getNode je.source, g.getNode je.destination with
      | some sn, some dn =>
        (g.addEdge (some
          { id := je.id, source := sn, destination := dn, weight := je.weight,
            timeWeight := je.timeWeight.getD 0,
            costWeight := je.costWeight.getD 0 })).1
      | _, _ => g) g).edges,
      e ∈ g.edges ∨
        ∃ je ∈ l, e.id = je.id ∧ e.source.id = je.source ∧
          e.destination.id = je.destination ∧ e.weight = je.weight ∧
          e.timeWeight = je.timeWeight.getD 0 ∧ e.costWeight = je.costWeight.getD 0 ∧
          e.source.id ∈ nids ∧ e.destination.id ∈ nids := by
  induction l generalizing g with
  | nil => exact fun e he => Or.inl he
  | cons je rest ih =>
    intro e he
    rw [List.foldl_cons] at he
    have hnodes' : ∀ n ∈ (match g.getNode je.source, g.getNode je.destination with
      | some sn, some dn =>
        (g.addEdge (some
          { id := je.id, source := sn, destination := dn, weight := je.weight,
            timeWeight := je.timeWeight.getD 0,
            costWeight := je.costWeight.getD 0 })).1
      | _, _ => g).nodes, n.id ∈ nids := by
      cases hs : g.getNode je.source with
      | none => simpa using hnodes
      | some sn =>
        cases hd : g.getNode je.destination with
        | none => simpa using hnodes
        | some dn => simpa [Graph.addEdge_nodes] using hnodes
    rcases ih _ hnodes' e he with hmem | ⟨je', hje', hrest⟩
    · cases hs : g.getNode je.source with
      | none =>
        rw [hs] at hmem
        exact Or.inl hmem
      | some sn =>
        cases hd : g.getNode je.destination with
        | none =>
          rw [hs, hd] at hmem
          exact Or.inl hmem
        | some dn =>
          rw [hs, hd] at hmem
          rcases Graph.mem_addEdge_edges hmem with hmem' | rfl
          · exact Or.inl hmem'
          · have hs1 : g.nodes.find? (fun m => m.id = je.source) = some sn := hs
            have hd1 : g.nodes.find? (fun m => m.id = je.destination) = some dn := hd
            have hsb := List.find?_some hs1
            have hdb := List.find?_some hd1
            have hsid : sn.id = je.source := of_decide_eq_true hsb
            have hdid : dn.id = je.destination := of_decide_eq_true hdb
            have hsmem := hnodes sn (List.mem_of_find?_eq_some hs1)
            have hdmem := hnodes dn (List.mem_of_find?_eq_some hd1)
            exact Or.inr ⟨je, List.mem_cons_self _ _, rfl, hsid, hdid, rfl, rfl, rfl,
              hsmem, hdmem⟩
    · exact Or.inr ⟨je', List.mem_cons_of_mem _ hje', hrest⟩

/-- C9: every edge of the imported graph originates from an edge record with
both endpoint keys among the imported node records, with an absent optional
weight field defaulted to zero; records whose endpoints do not resolve are
skipped (they produce no edge at all). -/
theorem C9_import (j : JsonGraph) :
    ∀ e ∈ (JsonHandler.jsonToGraph j).edges,
      (∃ je ∈ j.edges, e.id = je.id ∧ e.source.id = je.source ∧
        e.destination.id = je.destination ∧ e.weight = je.weight ∧
        e.timeWeight = je.timeWeight.getD 0 ∧ e.costWeight = je.costWeight.getD 0) ∧
      e.source.id ∈ j.nodes.map JsonNode.id ∧
      e.destination.id ∈ j.nodes.map JsonNode.id := by
  intro e he
  unfold JsonHandler.jsonToGraph at he
  have h0 : ∀ n ∈ (j.nodes.foldl
      (fun g jn => (g.addNode (some ⟨jn.id, jn.name.getD ""⟩)).1) Graph.empty).nodes,
      n.id ∈ j.nodes.map JsonNode.id := by
    intro n hn
    rcases foldl_addNode_nodes j.nodes Graph.empty n hn with h | h
    · cases h
    · exact h
  rcases foldl_estep_edges (j.nodes.map JsonNode.id) j.edges _ h0 e he with
    hmem | ⟨je, hje, h1, h2, h3, h4, h5, h6, h7, h8⟩
  · rw [foldl_addNode_edges] at hmem
    cases hmem
  · exact ⟨⟨je, hje, h1, h2, h3, h4, h5, h6⟩, h7, h8⟩

/-- A concrete import record: node C referenced by edge j2 is absent, and
edge j1 has no time-weight field. -/
def importSample : JsonGraph :=
  { nodes := [⟨"A", some "Alpha"⟩, ⟨"B", none⟩],
    edges := [⟨"j1", "A", "B", 5, none, some 7⟩, ⟨"j2", "A", "C", 1, some 2, none⟩] }

/-- The edge produced by importing `importSample`. -/
def importedEdge : Edge := ⟨"j1", ⟨"A", "Alpha"⟩, ⟨"B", ""⟩, 5, 0, 7⟩

/-- Witness for `C9_import` on `importSample`. -/
theorem C9_import_witness :
    importedEdge ∈ (JsonHandler.jsonToGraph importSample).edges ∧
      ((∃ je ∈ importSample.edges, importedEdge.id = je.id ∧
          importedEdge.source.id = je.source ∧
          importedEdge.destination.id = je.destination ∧
          importedEdge.weight = je.weight ∧
          importedEdge.timeWeight = je.timeWeight.getD 0 ∧
          importedEdge.costWeight = je.costWeight.getD 0) ∧
        importedEdge.source.id ∈ importSample.nodes.map JsonNode.id ∧
        importedEdge.destination.id ∈ importSample.nodes.map JsonNode.id) :=
  ⟨by decide, C9_import importSample importedEdge (by decide)⟩

/-!
## The store invariant (specification section 3)
-/

/-- The Graph Store invariants of the specification: unique node keys, unique
edge keys, adjacency keys mirroring the node table, edge endpoints resolving
to present nodes, adjacency lists sound for the edge set, and every stored
edge appearing exactly once in its source's adjacency list. -/
def StoreInv (g : Graph) : Prop :=
  (g.nodes.map Node.id).Nodup ∧
  (g.edges.map Edge.id).Nodup ∧
  g.adj.map Prod.fst = g.nodes.map Node.id ∧
  (∀ e ∈ g.edges, e.source.id ∈ g.nodes.map Node.id ∧
    e.destination.id ∈ g.nodes.map Node.id) ∧
  (∀ p ∈ g.adj, ∀ e ∈ p.2, e ∈ g.edges ∧ e.source.id = p.1) ∧
  (∀ e ∈ g.edges, (g.getOutgoingEdges e.source.id).count e = 1)

instance (g : Graph) : Decidable (StoreInv g) := by
  unfold StoreInv
  infer_instance

/-- Erasing by key commutes with taking keys. -/
theorem map_fst_eraseP_key {α : Type} (l : List (String × α)) (k : String) :
    (l.eraseP (fun p => p.1 = k)).map Prod.fst =
      (l.map Prod.fst).eraseP (fun x => x = k) := by
  induction l with
  | nil => rfl
  | cons a t ih =>
    rw [List.eraseP_cons, List.map_cons, List.eraseP_cons]
    by_cases h : a.1 = k
    · simp [h]
    · simp [h, ih]

/-- After erasing the only occurrence of a key from a duplicate-free list,
the key is gone. -/
theorem not_mem_eraseP_self {l : List String} (h : l.Nodup) (k : String) :
    k ∉ l.eraseP (fun x => x = k) := by
  induction l with
  | nil => simp
  | cons a t ih =>
    rw [List.eraseP_cons]
    by_cases hak : a = k
    · subst hak
      simp only [decide_eq_true_eq]
      simp
      exact (List.nodup_cons.mp h).1
    · simp only [decide_eq_false hak, Bool.cond_false]
      intro hmem
      rcases List.mem_cons.mp hmem with rfl | hmem
      · exact hak rfl
      · exact ih (List.nodup_cons.mp h).2 hmem

/-- A key absent from the key list is not found. -/
theorem find?_key_eq_none {α : Type} {l : List (String × α)} {k : String}
    (h : k ∉ l.map Prod.fst) : l.find? (fun p => p.1 = k) = none := by
  rw [List.find?_eq_none]
  intro p hp hpk
  exact h (List.mem_map.mpr ⟨p, hp, of_decide_eq_true hpk⟩)

/-- C7: on a well-formed store containing node key `k`, `removeNode k`
succeeds, no remaining edge or adjacency entry touches `k`, and `k`'s own
adjacency entry is gone; on an absent key `removeNode` returns false and
leaves the store unchanged. -/
theorem C7_removeNode (g : Graph) (k : String) (hinv : StoreInv g) :
    ((g.getNode k).isSome →
      (g.removeNode k).2 = true ∧
      (∀ e ∈ (g.removeNode k).1.getAllEdges, ¬ e.source.id = k ∧ ¬ e.destination.id = k) ∧
      (∀ x, ∀ e ∈ (g.removeNode k).1.getOutgoingEdges x,
        ¬ e.source.id = k ∧ ¬ e.destination.id = k) ∧
      (g.removeNode k).1.adj.find? (fun p => p.1 = k) = none) ∧
    (¬ (g.getNode k).isSome → g.removeNode k = (g, false)) := by
  obtain ⟨hnd, hed, hkeys, hend, hsound, honce⟩ := hinv
  constructor
  · intro hk
    have hg' : g.removeNode k =
        ({ nodes := g.nodes.eraseP (fun n => n.id = k),
           edges := g.edges.filter
             (fun e => ¬ (e.source.id = k ∨ e.destination.id = k)),
           adj := (g.adj.eraseP (fun p => p.1 = k)).map
             (fun p => (p.1, p.2.filter (fun e => ¬ e.destination.id = k))) },
         true) := by
      unfold Graph.removeNode
      rw [if_pos hk]
    have hkeys' : ((g.removeNode k).1).adj.map Prod.fst =
        (g.nodes.map Node.id).eraseP (fun x => x = k) := by
      rw [hg']
      show ((g.adj.eraseP (fun p => p.1 = k)).map
        (fun p => (p.1, p.2.filter (fun e => ¬ e.destination.id = k)))).map Prod.fst = _
      rw [List.map_map]
      have : (Prod.fst ∘ fun p : String × List Edge =>
          (p.1, p.2.filter (fun e => ¬ e.destination.id = k))) = Prod.fst := rfl
      rw [this, map_fst_eraseP_key, hkeys]
    have hfindnone : ((g.removeNode k).1).adj.find? (fun p => p.1 = k) = none := by
      apply find?_key_eq_none
      rw [hkeys']
      exact not_mem_eraseP_self hnd k
    refine ⟨by rw [hg'], ?_, ?_, hfindnone⟩
    · intro e he
      rw [hg'] at he
      have he' : e ∈ g.edges.filter
          (fun e => ¬ (e.source.id = k ∨ e.destination.id = k)) := he
      have hp := List.of_mem_filter he'
      have := of_decide_eq_true hp
      push_neg at this
      exact ⟨this.1, this.2⟩
    · intro x e he
      unfold Graph.getOutgoingEdges at he
      cases hf : ((g.removeNode k).1).adj.find? (fun p => p.1 = x) with
      | none =>
        rw [hf] at he
        cases he
      | some p =>
        rw [hf] at he
        have hpmem : p ∈ ((g.removeNode k).1).adj := List.mem_of_find?_eq_some hf
        rw [hg'] at hpmem
        obtain ⟨q, hq, rfl⟩ := List.mem_map.mp hpmem
        have hqadj : q ∈ g.adj := (List.eraseP_sublist _).mem hq
        have heq2 : e ∈ q.2 := List.mem_of_mem_filter he
        have hdst : ¬ e.destination.id = k := by
          have := List.of_mem_filter he
          simpa using this
        have hsrc := (hsound q hqadj e heq2).2
        have hq1k : ¬ q.1 = k := by
          intro hqk
          have : k ∈ ((g.adj.eraseP (fun p => p.1 = k)).map Prod.fst) :=
            List.mem_map.mpr ⟨q, hq, hqk⟩
          rw [map_fst_eraseP_key, hkeys] at this
          exact not_mem_eraseP_self hnd k this
        exact ⟨by rw [hsrc]; exact hq1k, hdst⟩
  · intro hk
    unfold Graph.removeNode
    rw [if_neg hk]

/-- A two-node, two-edge store used as a concrete well-formed fixture. -/
def fixtureG : Graph :=
  let g1 := (Graph.empty.addNode (some ⟨"A", "a"⟩)).1
  let g2 := (g1.addNode (some ⟨"B", "b"⟩)).1
  let g3 := (g2.addEdge (some ⟨"eAB", ⟨"A", "a"⟩, ⟨"B", "b"⟩, 1, 2, 3⟩)).1
  (g3.addEdge (some ⟨"eBA", ⟨"B", "b"⟩, ⟨"A", "a"⟩, 4, 5, 6⟩)).1

/-- Witness for `C7_removeNode` on the fixture store, removing node A. -/
theorem C7_removeNode_witness :
    StoreInv fixtureG ∧ (fixtureG.getNode "A").isSome ∧
      ((fixtureG.removeNode "A").2 = true ∧
        (∀ e ∈ (fixtureG.removeNode "A").1.getAllEdges,
          ¬ e.source.id = "A" ∧ ¬ e.destination.id = "A") ∧
        (∀ x, ∀ e ∈ (fixtureG.removeNode "A").1.getOutgoingEdges x,
          ¬ e.source.id = "A" ∧ ¬ e.destination.id = "A") ∧
        (fixtureG.removeNode "A").1.adj.find? (fun p => p.1 = "A") = none) :=
  ⟨by decide, by decide, (C7_removeNode fixtureG "A" (by decide)).1 (by decide)⟩

/-!
## C8 helper lemmas
-/

/-- Erasing by key commutes with mapping the key out, for any key function. -/
theorem map_eraseP_key {α : Type} (f : α → String) (l : List α) (k : String) :
    (l.eraseP (fun a => f a = k)).map f = (l.map f).eraseP (fun x => x = k) := by
  induction l with
  | nil => rfl
  | cons a t ih =>
    rw [List.eraseP_cons, List.map_cons, List.eraseP_cons]
    by_cases h : f a = k
    · simp [h]
    · simp [h, ih]

/-- `getNode` misses exactly the keys outside the node table. -/
theorem getNode_eq_none_iff (g : Graph) (k : String) :
    g.getNode k = none ↔ k ∉ g.nodes.map Node.id := by
  unfold Graph.getNode
  rw [List.find?_eq_none]
  constructor
  · intro h hk
    obtain ⟨n, hn, hnk⟩ := List.mem_map.mp hk
    exact h n hn (decide_eq_true hnk)
  · intro h n hn hnk
    exact h (List.mem_map.mpr ⟨n, hn, of_decide_eq_true hnk⟩)

/-- Finding a key untouched by an erase-by-other-key. -/
theorem find?_eraseP_ne {α : Type} (l : List (String × α)) {s k : String} (h : ¬ s = k) :
    (l.eraseP (fun p => p.1 = k)).find? (fun p => p.1 = s) =
      l.find? (fun p => p.1 = s) := by
  induction l with
  | nil => rfl
  | cons a t ih =>
    rw [List.eraseP_cons]
    by_cases hak : a.1 = k
    · have has : ¬ a.1 = s := by
        intro h'
        exact h (h' ▸ hak)
      simp only [decide_eq_true hak, Bool.cond_true]
      rw [List.find?_cons_of_neg _ (by simpa using has)]
    · simp only [decide_eq_false hak, Bool.cond_false]
      by_cases has : a.1 = s
      · rw [List.find?_cons_of_pos _ (by simpa using has),
          List.find?_cons_of_pos _ (by simpa using has)]
      · rw [List.find?_cons_of_neg _ (by simpa using has),
          List.find?_cons_of_neg _ (by simpa using has), ih]

/-- Finding a key through a map that preserves keys. -/
theorem find?_map_keypres {α : Type} (F : String × α → String × α)
    (hF : ∀ p, (F p).1 = p.1) (l : List (String × α)) (s : String) :
    (l.map F).find? (fun p => p.1 = s) = (l.find? (fun p => p.1 = s)).map F := by
  induction l with
  | nil => rfl
  | cons a t ih =>
    rw [List.map_cons]
    by_cases has : a.1 = s
    · rw [List.find?_cons_of_pos _ (by simpa [hF] using has),
        List.find?_cons_of_pos _ (by simpa using has)]
      rfl
    · rw [List.find?_cons_of_neg _ (by simpa [hF] using has),
        List.find?_cons_of_neg _ (by simpa using has), ih]

/-- A key present in the key list is found. -/
theorem find?_key_of_mem {α : Type} {l : List (String × α)} {k : String}
    (h : k ∈ l.map Prod.fst) :
    ∃ p, l.find? (fun q => q.1 = k) = some p ∧ p ∈ l ∧ p.1 = k := by
  have : (l.find? (fun q => q.1 = k)).isSome := by
    rw [List.find?_isSome]
    obtain ⟨p, hp, hpk⟩ := List.mem_map.mp h
    exact ⟨p, hp, decide_eq_true hpk⟩
  obtain ⟨p, hp⟩ := Option.isSome_iff_exists.mp this
  have hb := List.find?_some hp
  exact ⟨p, hp, List.mem_of_find?_eq_some hp, of_decide_eq_true hb⟩

/-- `getOutgoingEdges` after `addNode` with a fresh key: unchanged for old
keys, empty for the new one. -/
theorem addNode_preserves_inv {g : Graph} (hinv : StoreInv g) (x : Option Node) :
    StoreInv (g.addNode x).1 := by
  obtain ⟨hnd, hed, hkeys, hend, hsound, honce⟩ := hinv
  cases x with
  | none => exact ⟨hnd, hed, hkeys, hend, hsound, honce⟩
  | some n =>
    by_cases hdup : (g.getNode n.id).isSome
    · have h1 : g.addNode (some n) = (g, false) := by
        show (if (g.getNode n.id).isSome = true then (g, false)
          else ({ nodes := g.nodes ++ [n], edges := g.edges,
                  adj := Graph.adjAssign g.adj n.id [] }, true)) = (g, false)
        rw [if_pos hdup]
      rw [h1]
      exact ⟨hnd, hed, hkeys, hend, hsound, honce⟩
    · have hni : n.id ∉ g.nodes.map Node.id := by
        rw [← getNode_eq_none_iff]
        exact Option.not_isSome_iff_eq_none.mp hdup
    
      have hanyf : (g.adj.any fun p => p.1 = n.id) = false := by
        rw [List.any_eq_false]
        intro p hp hpn
        exact hni (hkeys ▸ List.mem_map.mpr ⟨p, hp, of_decide_eq_true hpn⟩)
      have hg' : (g.addNode (some n)).1 =
          { nodes := g.nodes ++ [n], edges := g.edges,
            adj := g.adj ++ [(n.id, [])] } := by
        show (if (g.getNode n.id).isSome = true then (g, false)
          else ({ nodes := g.nodes ++ [n], edges := g.edges,
                  adj := Graph.adjAssign g.adj n.id [] }, true)).1 = _
        rw [if_neg hdup]
        unfold Graph.adjAssign
        rw [hanyf]
        simp
      rw [hg']
      refine ⟨?_, hed, ?_, ?_, ?_, ?_⟩
      · rw [List.map_append, List.nodup_append]
        refine ⟨hnd, List.nodup_singleton _, ?_⟩
        intro a ha han
        simp only [List.map_cons, List.map_nil, List.mem_singleton] at han
        exact hni (han ▸ ha)
      · show (g.adj ++ [(n.id, [])]).map Prod.fst = (g.nodes ++ [n]).map Node.id
        rw [List.map_append, List.map_append, hkeys]
        rfl
      · intro e he
        obtain ⟨h1, h2⟩ := hend e he
        constructor
        · show e.source.id ∈ (g.nodes ++ [n]).map Node.id
          rw [List.map_append]
          exact List.mem_append_left _ h1
        · show e.destination.id ∈ (g.nodes ++ [n]).map Node.id
          rw [List.map_append]
          exact List.mem_append_left _ h2
      · intro p hp e hep
        rcases List.mem_append.mp hp with hp | hp
        · exact hsound p hp e hep
        · rw [List.mem_singleton] at hp
          subst hp
          cases hep
      · intro e he
        have hsrc : e.source.id ∈ g.adj.map Prod.fst := hkeys ▸ (hend e he).1
        obtain ⟨p, hfind, hpmem, hpk⟩ := find?_key_of_mem hsrc
        have hout : Graph.getOutgoingEdges
            { nodes := g.nodes ++ [n], edges := g.edges, adj := g.adj ++ [(n.id, [])] }
            e.source.id = p.2 := by
          unfold Graph.getOutgoingEdges
          rw [List.find?_append, hfind]
          rfl
        have hout0 : g.getOutgoingEdges e.source.id = p.2 := by
          unfold Graph.getOutgoingEdges
          rw [hfind]
        rw [hout, ← hout0]
        exact honce e he

/-- `addNode` is all-or-nothing: a false return leaves the store unchanged. -/
theorem addNode_false_unchanged (g : Graph) (x : Option Node)
    (h : (g.addNode x).2 = false) : (g.addNode x).1 = g := by
  cases x with
  | none => rfl
  | some n =>
    have hh : (if (g.getNode n.id).isSome = true then (g, false)
        else ({ nodes := g.nodes ++ [n], edges := g.edges,
                adj := Graph.adjAssign g.adj n.id [] }, true)).2 = false := h
    show (if (g.getNode n.id).isSome = true then (g, false)
        else ({ nodes := g.nodes ++ [n], edges := g.edges,
                adj := Graph.adjAssign g.adj n.id [] }, true)).1 = g
    by_cases hdup : (g.getNode n.id).isSome
    · rw [if_pos hdup]
    · rw [if_neg hdup] at hh
      cases hh

theorem removeNode_preserves_inv {g : Graph} (hinv : StoreInv g) (k : String) :
    StoreInv (g.removeNode k).1 := by
  obtain ⟨hnd, hed, hkeys, hend, hsound, honce⟩ := hinv
  by_cases hk : (g.getNode k).isSome
  · have hg' : (g.removeNode k).1 =
        { nodes := g.nodes.eraseP (fun n => n.id = k),
          edges := g.edges.filter
            (fun e => ¬ (e.source.id = k ∨ e.destination.id = k)),
          adj := (g.adj.eraseP (fun p => p.1 = k)).map
            (fun p => (p.1, p.2.filter (fun e => ¬ e.destination.id = k))) } := by
      unfold Graph.removeNode
      rw [if_pos hk]
    rw [hg']
    have hids' : (g.nodes.eraseP (fun n => n.id = k)).map Node.id =
        (g.nodes.map Node.id).eraseP (fun x => x = k) := map_eraseP_key Node.id g.nodes k
    refine ⟨?_, ?_, ?_, ?_, ?_, ?_⟩
    · exact hnd.sublist ((List.eraseP_sublist _).map Node.id)
    · exact hed.sublist ((List.filter_sublist _).map Edge.id)
    · show ((g.adj.eraseP (fun p => p.1 = k)).map
        (fun p => (p.1, p.2.filter (fun e => ¬ e.destination.id = k)))).map Prod.fst = _
      rw [List.map_map]
      have hcomp : (Prod.fst ∘ fun p : String × List Edge =>
          (p.1, p.2.filter (fun e => ¬ e.destination.id = k))) = Prod.fst := rfl
      rw [hcomp, map_fst_eraseP_key, hkeys, hids']
    · intro e he
      have he' : e ∈ g.edges.filter
          (fun e => ¬ (e.source.id = k ∨ e.destination.id = k)) := he
      have hmem := List.mem_of_mem_filter he'
      have hb := List.of_mem_filter he'
      have hpred := of_decide_eq_true hb
      push_neg at hpred
      obtain ⟨h1, h2⟩ := hend e hmem
      constructor
      · show e.source.id ∈ (g.nodes.eraseP (fun n => n.id = k)).map Node.id
        rw [hids']
        exact (List.mem_eraseP_of_neg (by simpa using hpred.1)).mpr h1
      · show e.destination.id ∈ (g.nodes.eraseP (fun n => n.id = k)).map Node.id
        rw [hids']
        exact (List.mem_eraseP_of_neg (by simpa using hpred.2)).mpr h2
    · intro p hp e hep
      obtain ⟨q, hq, rfl⟩ := List.mem_map.mp hp
      have hqadj : q ∈ g.adj := (List.eraseP_sublist _).mem hq
      have heq2 : e ∈ q.2 := List.mem_of_mem_filter hep
      have hdst : ¬ e.destination.id = k := by
        have := List.of_mem_filter hep
        simpa using this
      obtain ⟨hee, hesrc⟩ := hsound q hqadj e heq2
      have hq1k : ¬ q.1 = k := by
        intro hqk
        have : k ∈ ((g.adj.eraseP (fun p => p.1 = k)).map Prod.fst) :=
          List.mem_map.mpr ⟨q, hq, hqk⟩
        rw [map_fst_eraseP_key, hkeys] at this
        exact not_mem_eraseP_self hnd k this
      refine ⟨List.mem_filter.mpr ⟨hee, ?_⟩, hesrc⟩
      have : ¬ (e.source.id = k ∨ e.destination.id = k) := by
        rintro (h | h)
        · exact hq1k (hesrc ▸ h)
        · exact hdst h
      simpa using this
    · intro e he
      have he' : e ∈ g.edges.filter
          (fun e => ¬ (e.source.id = k ∨ e.destination.id = k)) := he
      have hmem := List.mem_of_mem_filter he'
      have hb := List.of_mem_filter he'
      have hpred := of_decide_eq_true hb
      push_neg at hpred
      have hsrc : e.source.id ∈ g.adj.map Prod.fst := hkeys ▸ (hend e hmem).1
      obtain ⟨p, hfind, hpmem, hpk⟩ := find?_key_of_mem hsrc
      have hout0 : g.getOutgoingEdges e.source.id = p.2 := by
        unfold Graph.getOutgoingEdges
        rw [hfind]
      have hcount0 : p.2.count e = 1 := by
        rw [← hout0]
        exact honce e hmem
      have hfind' : ((g.adj.eraseP (fun p => p.1 = k)).map
          (fun p => (p.1, p.2.filter (fun e => ¬ e.destination.id = k)))).find?
            (fun q => q.1 = e.source.id) =
          some (p.1, p.2.filter (fun e => ¬ e.destination.id = k)) := by
        rw [find?_map_keypres
            (fun p => (p.1, p.2.filter (fun e => ¬ e.destination.id = k)))
            (fun p => rfl) (g.adj.eraseP (fun p => p.1 = k)) e.source.id,
          find?_eraseP_ne g.adj hpred.1, hfind]
        rfl
      have hout : Graph.getOutgoingEdges
          { nodes := g.nodes.eraseP (fun n => n.id = k),
            edges := g.edges.filter
              (fun e => ¬ (e.source.id = k ∨ e.destination.id = k)),
            adj := (g.adj.eraseP (fun p => p.1 = k)).map
              (fun p => (p.1, p.2.filter (fun e => ¬ e.destination.id = k))) }
          e.source.id = p.2.filter (fun e => ¬ e.destination.id = k) := by
        unfold Graph.getOutgoingEdges
        rw [hfind']
      rw [hout, List.count_filter (by simpa using hpred.2), hcount0]
  · unfold Graph.removeNode
    rw [if_neg hk]
    exact ⟨hnd, hed, hkeys, hend, hsound, honce⟩

theorem removeNode_false_unchanged (g : Graph) (k : String)
    (h : (g.removeNode k).2 = false) : (g.removeNode k).1 = g := by
  unfold Graph.removeNode at h ⊢
  by_cases hk : (g.getNode k).isSome
  · rw [if_pos hk] at h
    cases h
  · rw [if_neg hk]

theorem addEdge_preserves_inv {g : Graph} (hinv : StoreInv g) (x : Option Edge) :
    StoreInv (g.addEdge x).1 := by
  obtain ⟨hnd, hed, hkeys, hend, hsound, honce⟩ := hinv
  cases x with
  | none => exact ⟨hnd, hed, hkeys, hend, hsound, honce⟩
  | some e =>
    show StoreInv (if (g.getNode e.source.id).isNone ∨ (g.getNode e.destination.id).isNone
      then (g, false)
      else if g.edges.any (fun y => y.id = e.id) then (g, false)
      else ({ nodes := g.nodes, edges := g.edges ++ [e],
              adj := Graph.adjPush g.adj e.source.id e }, true)).1
    by_cases hmiss : (g.getNode e.source.id).isNone ∨ (g.getNode e.destination.id).isNone
    · rw [if_pos hmiss]
      exact ⟨hnd, hed, hkeys, hend, hsound, honce⟩
    · rw [if_neg hmiss]
      by_cases hdup : g.edges.any (fun y => y.id = e.id)
      · rw [if_pos hdup]
        exact ⟨hnd, hed, hkeys, hend, hsound, honce⟩
      · rw [if_neg hdup]
        push_neg at hmiss
        have hsrcm : e.source.id ∈ g.nodes.map Node.id := by
          by_contra hc
          exact hmiss.1 (Option.isNone_iff_eq_none.mpr ((getNode_eq_none_iff g _).mpr hc))
        have hdstm : e.destination.id ∈ g.nodes.map Node.id := by
          by_contra hc
          exact hmiss.2 (Option.isNone_iff_eq_none.mpr ((getNode_eq_none_iff g _).mpr hc))
        have hfresh : e.id ∉ g.edges.map Edge.id := by
          intro hc
          obtain ⟨y, hy, hyid⟩ := List.mem_map.mp hc
          rw [Bool.not_eq_true, List.any_eq_false] at hdup
          exact hdup y hy (decide_eq_true hyid)
        have hsrckey : e.source.id ∈ g.adj.map Prod.fst := hkeys ▸ hsrcm
        have hanyt : (g.adj.any fun p => p.1 = e.source.id) = true := by
          rw [List.any_eq_true]
          obtain ⟨p, hp, hpk⟩ := List.mem_map.mp hsrckey
          exact ⟨p, hp, decide_eq_true hpk⟩
        have hadj : Graph.adjPush g.adj e.source.id e =
            g.adj.map (fun p => if p.1 = e.source.id then (p.1, p.2 ++ [e]) else p) := by
          unfold Graph.adjPush
          rw [if_pos hanyt]
        have hFkey : ∀ p : String × List Edge,
            ((fun p => if p.1 = e.source.id then (p.1, p.2 ++ [e]) else p) p).1 = p.1 := by
          intro p
          by_cases h : p.1 = e.source.id <;> simp [h]
        rw [hadj]
        refine ⟨hnd, ?_, ?_, ?_, ?_, ?_⟩
        · show ((g.edges ++ [e]).map Edge.id).Nodup
          rw [List.map_append, List.nodup_append]
          refine ⟨hed, List.nodup_singleton _, ?_⟩
          intro a ha han
          simp only [List.map_cons, List.map_nil, List.mem_singleton] at han
          exact hfresh (han ▸ ha)
        · show ((g.adj.map
              (fun p => if p.1 = e.source.id then (p.1, p.2 ++ [e]) else p)).map Prod.fst)
            = g.nodes.map Node.id
          rw [List.map_map]
          have hcomp : (Prod.fst ∘ fun p : String × List Edge =>
              if p.1 = e.source.id then (p.1, p.2 ++ [e]) else p) = Prod.fst := by
            funext p
            exact hFkey p
          rw [hcomp, hkeys]
        · intro e' he'
          have he2 : e' ∈ g.edges ++ [e] := he'
          rcases List.mem_append.mp he2 with hold | hnew
          · obtain ⟨h1, h2⟩ := hend e' hold
            exact ⟨h1, h2⟩
          · rw [List.mem_singleton] at hnew
            subst hnew
            exact ⟨hsrcm, hdstm⟩
        · intro p hp e' hep'
          have hp2 : p ∈ g.adj.map
            (fun p => if p.1 = e.source.id then (p.1, p.2 ++ [e]) else p) := hp
          obtain ⟨q, hq, rfl⟩ := List.mem_map.mp hp2
          by_cases hq1 : q.1 = e.source.id
          · rw [if_pos hq1] at hep' ⊢
            have hep2 : e' ∈ q.2 ++ [e] := hep'
            rcases List.mem_append.mp hep2 with hold | hnew
            · obtain ⟨h1, h2⟩ := hsound q hq e' hold
              exact ⟨List.mem_append_left _ h1, h2⟩
            · rw [List.mem_singleton] at hnew
              subst hnew
              exact ⟨List.mem_append_right _ (List.mem_singleton_self _), hq1.symm⟩
          · rw [if_neg hq1] at hep' ⊢
            obtain ⟨h1, h2⟩ := hsound q hq e' hep'
            exact ⟨List.mem_append_left _ h1, h2⟩
        · intro e' he'
          have he2 : e' ∈ g.edges ++ [e] := he'
          have hgetout : ∀ s : String, Graph.getOutgoingEdges
              { nodes := g.nodes, edges := g.edges ++ [e],
                adj := g.adj.map
                  (fun p => if p.1 = e.source.id then (p.1, p.2 ++ [e]) else p) } s =
              ((g.adj.find? (fun q => q.1 = s)).map
                (fun p => if p.1 = e.source.id then (p.1, p.2 ++ [e]) else p)).elim []
                Prod.snd := by
            intro s
            unfold Graph.getOutgoingEdges
            rw [find?_map_keypres _ hFkey]
            cases g.adj.find? (fun q => q.1 = s) <;> rfl
          rcases List.mem_append.mp he2 with hold | hnew
          · obtain ⟨p, hfind, hpmem, hpk⟩ :=
              find?_key_of_mem (hkeys ▸ (hend e' hold).1)
            have hout0 : g.getOutgoingEdges e'.source.id = p.2 := by
              unfold Graph.getOutgoingEdges
              rw [hfind]
            have hcount0 : p.2.count e' = 1 := hout0 ▸ honce e' hold
            have hne : e' ≠ e := by
              intro hc
              exact hfresh (hc ▸ List.mem_map.mpr ⟨e', hold, rfl⟩)
            rw [hgetout, hfind]
            show ((if p.1 = e.source.id then (p.1, p.2 ++ [e]) else p).2).count e' = 1
            by_cases hps : p.1 = e.source.id
            · rw [if_pos hps]
              show (p.2 ++ [e]).count e' = 1
              rw [List.count_append, hcount0]
              have : [e].count e' = 0 := by
                rw [List.count_eq_zero]
                intro hc
                exact hne (List.mem_singleton.mp hc)
              rw [this]
            · rw [if_neg hps]
              exact hcount0
          · rw [List.mem_singleton] at hnew
            subst hnew
            obtain ⟨p, hfind, hpmem, hpk⟩ := find?_key_of_mem hsrckey
            rw [hgetout, hfind]
            show ((if p.1 = e'.source.id then (p.1, p.2 ++ [e']) else p).2).count e' = 1
            rw [if_pos hpk]
            show (p.2 ++ [e']).count e' = 1
            rw [List.count_append]
            have hz : p.2.count e' = 0 := by
              rw [List.count_eq_zero]
              intro hc
              have := (hsound p hpmem e' hc).1
              exact hfresh (List.mem_map.mpr ⟨e', this, rfl⟩)
            rw [hz]
            simp

theorem addEdge_false_unchanged (g : Graph) (x : Option Edge)
    (h : (g.addEdge x).2 = false) : (g.addEdge x).1 = g := by
  cases x with
  | none => rfl
  | some e =>
    have hh : (if (g.getNode e.source.id).isNone ∨ (g.getNode e.destination.id).isNone
        then (g, false)
        else if g.edges.any (fun y => y.id = e.id) then (g, false)
        else ({ nodes := g.nodes, edges := g.edges ++ [e],
                adj := Graph.adjPush g.adj e.source.id e }, true)).2 = false := h
    show (if (g.getNode e.source.id).isNone ∨ (g.getNode e.destination.id).isNone
        then (g, false)
        else if g.edges.any (fun y => y.id = e.id) then (g, false)
        else ({ nodes := g.nodes, edges := g.edges ++ [e],
                adj := Graph.adjPush g.adj e.source.id e }, true)).1 = g
    by_cases h1 : (g.getNode e.source.id).isNone ∨ (g.getNode e.destination.id).isNone
    · rw [if_pos h1]
    · rw [if_neg h1] at hh ⊢
      by_cases h2 : g.edges.any (fun y => y.id = e.id)
      · rw [if_pos h2]
      · rw [if_neg h2] at hh
        cases hh

theorem removeEdge_preserves_inv {g : Graph} (hinv : StoreInv g) (eid : String) :
    StoreInv (g.removeEdge eid).1 := by
  obtain ⟨hnd, hed, hkeys, hend, hsound, honce⟩ := hinv
  cases hfe : g.edges.find? (fun y => y.id = eid) with
  | none =>
    have : g.removeEdge eid = (g, false) := by
      unfold Graph.removeEdge
      rw [hfe]
    rw [this]
    exact ⟨hnd, hed, hkeys, hend, hsound, honce⟩
  | some e =>
    have hemem : e ∈ g.edges := List.mem_of_find?_eq_some hfe
    have hb := List.find?_some hfe
    have heid : e.id = eid := of_decide_eq_true hb
    have hsrckey : e.source.id ∈ g.adj.map Prod.fst := hkeys ▸ (hend e hemem).1
    have hanyt : (g.adj.any fun p => p.1 = e.source.id) = true := by
      rw [List.any_eq_true]
      obtain ⟨p, hp, hpk⟩ := List.mem_map.mp hsrckey
      exact ⟨p, hp, decide_eq_true hpk⟩
    have hadj : Graph.adjEraseId g.adj e.source.id eid =
        g.adj.map (fun p => if p.1 = e.source.id
          then (p.1, p.2.filter (fun y => ¬ y.id = eid)) else p) := by
      unfold Graph.adjEraseId
      rw [if_pos hanyt]
    have hFkey : ∀ p : String × List Edge,
        ((fun p => if p.1 = e.source.id
          then (p.1, p.2.filter (fun y => ¬ y.id = eid)) else p) p).1 = p.1 := by
      intro p
      by_cases h : p.1 = e.source.id <;> simp [h]
    have hg' : (g.removeEdge eid).1 =
        { nodes := g.nodes,
          edges := g.edges.eraseP (fun y => y.id = eid),
          adj := g.adj.map (fun p => if p.1 = e.source.id
            then (p.1, p.2.filter (fun y => ¬ y.id = eid)) else p) } := by
      unfold Graph.removeEdge
      rw [hfe]
      show (Graph.mk g.nodes (g.edges.eraseP (fun x => x.id = eid))
            (Graph.adjEraseId g.adj e.source.id eid), true).1 =
        Graph.mk g.nodes (g.edges.eraseP (fun y => y.id = eid))
          (g.adj.map (fun p => if p.1 = e.source.id
            then (p.1, p.2.filter (fun y => ¬ y.id = eid)) else p))
      rw [hadj]
    have hids' : (g.edges.eraseP (fun y => y.id = eid)).map Edge.id =
        (g.edges.map Edge.id).eraseP (fun x => x = eid) := map_eraseP_key Edge.id g.edges eid
    have hgone : eid ∉ (g.edges.eraseP (fun y => y.id = eid)).map Edge.id := by
      rw [hids']
      exact not_mem_eraseP_self hed eid
    have hmem_sub : ∀ y ∈ g.edges.eraseP (fun y => y.id = eid), y ∈ g.edges :=
      fun y hy => (List.eraseP_sublist _).mem hy
    have hkeep : ∀ y ∈ g.edges, ¬ y.id = eid → y ∈ g.edges.eraseP (fun y => y.id = eid) :=
      fun y hy hne => (List.mem_eraseP_of_neg (by simpa using hne)).mpr hy
    have hnid : ∀ y ∈ g.edges.eraseP (fun y => y.id = eid), ¬ y.id = eid := by
      intro y hy hc
      exact hgone (List.mem_map.mpr ⟨y, hy, hc⟩)
    rw [hg']
    refine ⟨hnd, ?_, ?_, ?_, ?_, ?_⟩
    · show ((g.edges.eraseP (fun y => y.id = eid)).map Edge.id).Nodup
      rw [hids']
      exact hed.sublist (List.eraseP_sublist _)
    · show ((g.adj.map (fun p => if p.1 = e.source.id
          then (p.1, p.2.filter (fun y => ¬ y.id = eid)) else p)).map Prod.fst)
        = g.nodes.map Node.id
      rw [List.map_map]
      have hcomp : (Prod.fst ∘ fun p : String × List Edge =>
          if p.1 = e.source.id then (p.1, p.2.filter (fun y => ¬ y.id = eid)) else p) =
          Prod.fst := by
        funext p
        exact hFkey p
      rw [hcomp, hkeys]
    · intro e' he'
      exact hend e' (hmem_sub e' he')
    · intro p hp e' hep'
      have hp2 : p ∈ g.adj.map (fun p => if p.1 = e.source.id
        then (p.1, p.2.filter (fun y => ¬ y.id = eid)) else p) := hp
      obtain ⟨q, hq, rfl⟩ := List.mem_map.mp hp2
      by_cases hq1 : q.1 = e.source.id
      · rw [if_pos hq1] at hep' ⊢
        have hep2 : e' ∈ q.2.filter (fun y => ¬ y.id = eid) := hep'
        have he'q := List.mem_of_mem_filter hep2
        have hb2 := List.of_mem_filter hep2
        have hne : ¬ e'.id = eid := of_decide_eq_true hb2
        obtain ⟨h1, h2⟩ := hsound q hq e' he'q
        exact ⟨hkeep e' h1 hne, h2⟩
      · rw [if_neg hq1] at hep' ⊢
        obtain ⟨h1, h2⟩ := hsound q hq e' hep'
        have hne : ¬ e'.id = eid := by
          intro hc
          have : e' = e := List.inj_on_of_nodup_map hed h1 hemem (by rw [hc, heid])
          exact hq1 (this ▸ h2 ▸ rfl)
        exact ⟨hkeep e' h1 hne, h2⟩
    · intro e' he'
      have he'2 : e' ∈ g.edges.eraseP (fun y => y.id = eid) := he'
      have holdmem := hmem_sub e' he'2
      have hne := hnid e' he'2
      obtain ⟨p, hfind, hpmem, hpk⟩ := find?_key_of_mem (hkeys ▸ (hend e' holdmem).1)
      have hout0 : g.getOutgoingEdges e'.source.id = p.2 := by
        unfold Graph.getOutgoingEdges
        rw [hfind]
      have hcount0 : p.2.count e' = 1 := hout0 ▸ honce e' holdmem
      have hgetout : Graph.getOutgoingEdges
          { nodes := g.nodes,
            edges := g.edges.eraseP (fun y => y.id = eid),
            adj := g.adj.map (fun p => if p.1 = e.source.id
              then (p.1, p.2.filter (fun y => ¬ y.id = eid)) else p) } e'.source.id =
          ((if p.1 = e.source.id
            then (p.1, p.2.filter (fun y => ¬ y.id = eid)) else p)).2 := by
        unfold Graph.getOutgoingEdges
        rw [find?_map_keypres _ hFkey, hfind]
        rfl
      rw [hgetout]
      by_cases hps : p.1 = e.source.id
      · rw [if_pos hps]
        show (p.2.filter (fun y => ¬ y.id = eid)).count e' = 1
        rw [List.count_filter (by simpa using hne), hcount0]
      · rw [if_neg hps]
        exact hcount0

theorem removeEdge_false_unchanged (g : Graph) (eid : String)
    (h : (g.removeEdge eid).2 = false) : (g.removeEdge eid).1 = g := by
  cases hfe : g.edges.find? (fun y => y.id = eid) with
  | none =>
    have : g.removeEdge eid = (g, false) := by
      unfold Graph.removeEdge
      rw [hfe]
    rw [this]
  | some e =>
    have : (g.removeEdge eid).2 = true := by
      unfold Graph.removeEdge
      rw [hfe]
    rw [this] at h
    cases h

theorem clear_inv (g : Graph) : StoreInv g.clear := by
  show StoreInv Graph.empty
  decide

/-- C8: from any well-formed store, each of the five mutations preserves the
adjacency/edge-set consistency invariant (every stored edge exactly once in
its source's adjacency list, every adjacency edge in the edge set, both
structures updated in the same operation), and every failed mutation returns
false leaving the store entirely unchanged; a null argument is rejected. -/
theorem C8_adjacency_consistency (g : Graph) (hinv : StoreInv g) :
    (∀ x, StoreInv (g.addNode x).1 ∧
      ((g.addNode x).2 = false → (g.addNode x).1 = g)) ∧
    (∀ k, StoreInv (g.removeNode k).1 ∧
      ((g.removeNode k).2 = false → (g.removeNode k).1 = g)) ∧
    (∀ x, StoreInv (g.addEdge x).1 ∧
      ((g.addEdge x).2 = false → (g.addEdge x).1 = g)) ∧
    (∀ k, StoreInv (g.removeEdge k).1 ∧
      ((g.removeEdge k).2 = false → (g.removeEdge k).1 = g)) ∧
    StoreInv g.clear ∧
    g.addNode none = (g, false) ∧ g.addEdge none = (g, false) :=
  ⟨fun x => ⟨addNode_preserves_inv hinv x, addNode_false_unchanged g x⟩,
   fun k => ⟨removeNode_preserves_inv hinv k, removeNode_false_unchanged g k⟩,
   fun x => ⟨addEdge_preserves_inv hinv x, addEdge_false_unchanged g x⟩,
   fun k => ⟨removeEdge_preserves_inv hinv k, removeEdge_false_unchanged g k⟩,
   clear_inv g, rfl, rfl⟩

/-- Witness for `C8_adjacency_consistency` on the fixture store. -/
theorem C8_adjacency_consistency_witness :
    StoreInv fixtureG ∧
      StoreInv (fixtureG.addNode (some ⟨"C", "c"⟩)).1 ∧
      fixtureG.addNode none = (fixtureG, false) :=
  ⟨by decide,
   ((C8_adjacency_consistency fixtureG (by decide)).1 (some ⟨"C", "c"⟩)).1,
   (C8_adjacency_consistency fixtureG (by decide)).2.2.2.2.2.1⟩

/-!
## C6 — the all-destinations query
-/

/-- Reachability along the adjacency structure the search walks. -/
inductive Reachable (g : Graph) (s : String) : String → Prop where
  | refl : Reachable g s s
  | step {u : String} {e : Edge} : Reachable g s u → e ∈ g.getOutgoingEdges u →
      Reachable g s e.destination.id

namespace PathFinder

/-- `dSet` can only add its own key to the key list. -/
theorem dSet_keys_mono {m : List (String × WithTop ℚ)} {k : String} {v : WithTop ℚ}
    {x : String} (h : x ∈ m.map Prod.fst) : x ∈ (dSet m k v).map Prod.fst := by
  unfold dSet
  split
  · obtain ⟨p, hp, hpx⟩ := List.mem_map.mp h
    by_cases hpk : p.1 = k
    · refine List.mem_map.mpr ⟨(k, v), List.mem_map.mpr ⟨p, hp, by rw [if_pos hpk]⟩, ?_⟩
      show k = x
      rw [← hpx, hpk]
    · exact List.mem_map.mpr ⟨p, List.mem_map.mpr ⟨p, hp, by rw [if_neg hpk]⟩, hpx⟩
  · rw [List.map_append]
    exact List.mem_append_left _ h

/-- The key written by `dSet` is in the key list. -/
theorem dSet_key_mem (m : List (String × WithTop ℚ)) (k : String) (v : WithTop ℚ) :
    k ∈ (dSet m k v).map Prod.fst := by
  unfold dSet
  split
  · rename_i hany
    rw [List.any_eq_true] at hany
    obtain ⟨p, hp, hpk⟩ := hany
    have hpk' := of_decide_eq_true hpk
    exact List.mem_map.mpr ⟨(k, v), List.mem_map.mpr ⟨p, hp, by rw [if_pos hpk']⟩, rfl⟩
  · rw [List.map_append]
    exact List.mem_append_right _ (by simp)

/-- `dSet` preserves the reachability invariant when the written value is
justified. -/
theorem dSet_inv {g : Graph} {s : String} {m : List (String × WithTop ℚ)}
    {k : String} {v : WithTop ℚ}
    (hm : ∀ p ∈ m, p.2 ≠ ⊤ → Reachable g s p.1)
    (hk : v ≠ ⊤ → Reachable g s k) :
    ∀ p ∈ dSet m k v, p.2 ≠ ⊤ → Reachable g s p.1 := by
  intro p hp
  unfold dSet at hp
  split at hp
  · obtain ⟨q, hq, hqp⟩ := List.mem_map.mp hp
    by_cases hqk : q.1 = k
    · rw [if_pos hqk] at hqp
      subst hqp
      exact hk
    · rw [if_neg hqk] at hqp
      subst hqp
      exact hm q hq
  · rcases List.mem_append.mp hp with hold | hnew
    · exact hm p hold
    · rw [List.mem_singleton] at hnew
      subst hnew
      exact hk

/-- `dGet` leaves the map unchanged or appends a zero entry for its key. -/
theorem dGet_snd_cases (m : List (String × WithTop ℚ)) (k : String) :
    (dGet m k).2 = m ∨ (dGet m k).2 = m ++ [(k, ((0 : ℚ) : WithTop ℚ))] := by
  unfold dGet
  cases m.find? (fun p => p.1 = k) with
  | none => exact Or.inr rfl
  | some p => exact Or.inl rfl

/-- `dGet` preserves the reachability invariant when its key is reachable,
and only grows the key list. -/
theorem dGet_inv {g : Graph} {s : String} {m : List (String × WithTop ℚ)} {k : String}
    (hm : ∀ p ∈ m, p.2 ≠ ⊤ → Reachable g s p.1) (hk : Reachable g s k) :
    ∀ p ∈ (dGet m k).2, p.2 ≠ ⊤ → Reachable g s p.1 := by
  rcases dGet_snd_cases m k with h | h <;> rw [h]
  · exact hm
  · intro p hp
    rcases List.mem_append.mp hp with hold | hnew
    · exact hm p hold
    · rw [List.mem_singleton] at hnew
      subst hnew
      exact fun _ => hk

/-- `dGet` only grows the key list. -/
theorem dGet_keys_mono {m : List (String × WithTop ℚ)} {k x : String}
    (h : x ∈ m.map Prod.fst) : x ∈ ((dGet m k).2).map Prod.fst := by
  rcases dGet_snd_cases m k with hc | hc <;> rw [hc]
  · exact h
  · rw [List.map_append]
    exact List.mem_append_left _ h

/-- The running minimum of the linear scan is the initial accumulator or one
of the scanned entries. -/
theorem scanMin_go_cases (m : List (String × WithTop ℚ)) (processed : List String)
    (b : String × WithTop ℚ) :
    (m.foldl (fun best p =>
        if ¬ processed.contains p.1 ∧ p.2 < best.2 then (p.1, p.2) else best) b) = b ∨
      ∃ p ∈ m, (m.foldl (fun best p =>
        if ¬ processed.contains p.1 ∧ p.2 < best.2 then (p.1, p.2) else best) b) =
        (p.1, p.2) := by
  induction m generalizing b with
  | nil => exact Or.inl rfl
  | cons q t ih =>
    rw [List.foldl_cons]
    rcases ih (if ¬ processed.contains q.1 ∧ q.2 < b.2 then (q.1, q.2) else b) with
      h | ⟨p, hp, h⟩
    · rw [h]
      by_cases hq : ¬ processed.contains q.1 ∧ q.2 < b.2
      · rw [if_pos hq]
        exact Or.inr ⟨q, List.mem_cons_self _ _, rfl⟩
      · rw [if_neg hq]
        exact Or.inl rfl
    · exact Or.inr ⟨p, List.mem_cons_of_mem _ hp, h⟩

/-- Any entry selected by `scanMin` with a finite distance names a key of the
map (with that stored value). -/
theorem scanMin_spec (m : List (String × WithTop ℚ)) (processed : List String)
    (h : (scanMin m processed).2 ≠ ⊤) :
    ∃ p ∈ m, scanMin m processed = (p.1, p.2) := by
  have hdef : scanMin m processed = m.foldl (fun best p =>
      if ¬ processed.contains p.1 ∧ p.2 < best.2 then (p.1, p.2) else best) ("", ⊤) := rfl
  rcases scanMin_go_cases m processed ("", ⊤) with hc | hc
  · rw [hdef, hc] at h
    exact absurd rfl h
  · rw [hdef]
    exact hc

/-- The relaxation step with its local bindings expanded. -/
theorem fspRelax_eq (mode : Nat) (minNode : String) (processed : List String)
    (m : List (String × WithTop ℚ)) (e : Edge) :
    fspRelax mode minNode processed m e =
      if processed.contains e.destination.id then m
      else (if (dGet m minNode).1 + ((getEdgeWeight e mode : ℚ) : WithTop ℚ) <
              (dGet (dGet m minNode).2 e.destination.id).1
            then dSet (dGet (dGet m minNode).2 e.destination.id).2 e.destination.id
              ((dGet m minNode).1 + ((getEdgeWeight e mode : ℚ) : WithTop ℚ))
            else (dGet (dGet m minNode).2 e.destination.id).2) := rfl

/-- The loop body with its local bindings expanded. -/
theorem fspLoop_succ (g : Graph) (mode : Nat) (f : Nat)
    (m : List (String × WithTop ℚ)) (processed : List String) :
    fspLoop g mode (f + 1) m processed =
      if processed.length < g.getNodeCount then
        (if (scanMin m processed).2 = ⊤ then m
         else fspLoop g mode f ((g.getOutgoingEdges (scanMin m processed).1).foldl
            (fun acc e => fspRelax mode (scanMin m processed).1
              ((scanMin m processed).1 :: processed) acc e) m)
          ((scanMin m processed).1 :: processed))
      else m := rfl

/-- One relaxation step of the all-destinations search preserves the
reachability invariant. -/
theorem fspRelax_inv {g : Graph} {s : String} {mode : Nat} {minNode : String}
    {processed : List String} {m : List (String × WithTop ℚ)}
    (hm : ∀ p ∈ m, p.2 ≠ ⊤ → Reachable g s p.1)
    (hmin : Reachable g s minNode) {e : Edge} (he : e ∈ g.getOutgoingEdges minNode) :
    ∀ p ∈ fspRelax mode minNode processed m e, p.2 ≠ ⊤ → Reachable g s p.1 := by
  rw [fspRelax_eq]
  split
  · exact hm
  · have hv : Reachable g s e.destination.id := Reachable.step hmin he
    have h1 := dGet_inv hm hmin (k := minNode)
    have h2 := dGet_inv h1 hv (k := e.destination.id)
    split
    · exact dSet_inv h2 (fun _ => hv)
    · exact h2

/-- One relaxation step only grows the key list. -/
theorem fspRelax_keys_mono {mode : Nat} {minNode : String} {processed : List String}
    {m : List (String × WithTop ℚ)} {e : Edge} {x : String}
    (h : x ∈ m.map Prod.fst) :
    x ∈ (fspRelax mode minNode processed m e).map Prod.fst := by
  rw [fspRelax_eq]
  split
  · exact h
  · have h1 := dGet_keys_mono (k := minNode) h
    have h2 := dGet_keys_mono (k := e.destination.id) h1
    split
    · exact dSet_keys_mono h2
    · exact h2

/-- The relaxation fold over a node's outgoing edges preserves the
reachability invariant. -/
theorem relaxFold_inv {g : Graph} {s : String} {mode : Nat} {minNode : String}
    {processed : List String} (hmin : Reachable g s minNode) :
    ∀ (es : List Edge), (∀ e ∈ es, e ∈ g.getOutgoingEdges minNode) →
      ∀ (m : List (String × WithTop ℚ)), (∀ p ∈ m, p.2 ≠ ⊤ → Reachable g s p.1) →
      ∀ p ∈ es.foldl (fun acc e => fspRelax mode minNode processed acc e) m,
        p.2 ≠ ⊤ → Reachable g s p.1 := by
  intro es
  induction es with
  | nil => exact fun _ m hm => hm
  | cons e t ih =>
    intro hes m hm
    rw [List.foldl_cons]
    exact ih (fun e' he' => hes e' (List.mem_cons_of_mem _ he'))
      _ (fspRelax_inv hm hmin (hes e (List.mem_cons_self _ _)))

/-- The relaxation fold only grows the key list. -/
theorem relaxFold_keys_mono {mode : Nat} {minNode : String} {processed : List String} :
    ∀ (es : List Edge) (m : List (String × WithTop ℚ)) (x : String),
      x ∈ m.map Prod.fst →
      x ∈ (es.foldl (fun acc e => fspRelax mode minNode processed acc e) m).map
        Prod.fst := by
  intro es
  induction es with
  | nil => exact fun m x h => h
  | cons e t ih =>
    intro m x h
    rw [List.foldl_cons]
    exact ih _ x (fspRelax_keys_mono h)

/-- The main loop of the all-destinations search preserves the reachability
invariant. -/
theorem fspLoop_inv {g : Graph} {s : String} {mode : Nat} :
    ∀ (fuel : Nat) (m : List (String × WithTop ℚ)) (processed : List String),
      (∀ p ∈ m, p.2 ≠ ⊤ → Reachable g s p.1) →
      ∀ p ∈ fspLoop g mode fuel m processed, p.2 ≠ ⊤ → Reachable g s p.1 := by
  intro fuel
  induction fuel with
  | zero => exact fun m processed hm => hm
  | succ f ih =>
    intro m processed hm
    rw [fspLoop_succ]
    split
    · split
      · exact hm
      · rename_i htop
        obtain ⟨q, hq, hscan⟩ := scanMin_spec m processed htop
        have hqreach : Reachable g s (scanMin m processed).1 := by
          rw [hscan]
          refine hm q hq ?_
          rw [hscan] at htop
          exact htop
        exact ih _ _ (relaxFold_inv hqreach _ (fun e he => he) m hm)
    · exact hm

/-- The main loop only grows the key list. -/
theorem fspLoop_keys_mono {g : Graph} {mode : Nat} :
    ∀ (fuel : Nat) (m : List (String × WithTop ℚ)) (processed : List String)
      (x : String), x ∈ m.map Prod.fst →
      x ∈ (fspLoop g mode fuel m processed).map Prod.fst := by
  intro fuel
  induction fuel with
  | zero => exact fun m processed x h => h
  | succ f ih =>
    intro m processed x h
    rw [fspLoop_succ]
    split
    · split
      · exact h
      · exact ih _ _ x (relaxFold_keys_mono _ m x h)
    · exact h

/-- The distance initialisation fold preserves the reachability invariant. -/
theorem initFold_inv {g : Graph} {s : String} :
    ∀ (l : List Node) (m : List (String × WithTop ℚ)),
      (∀ p ∈ m, p.2 ≠ ⊤ → Reachable g s p.1) →
      ∀ p ∈ l.foldl (fun m n =>
          dSet m n.id (if n.id = s then ((0 : ℚ) : WithTop ℚ) else ⊤)) m,
        p.2 ≠ ⊤ → Reachable g s p.1 := by
  intro l
  induction l with
  | nil => exact fun m hm => hm
  | cons n t ih =>
    intro m hm
    rw [List.foldl_cons]
    refine ih _ (dSet_inv hm ?_)
    by_cases hn : n.id = s
    · rw [if_pos hn]
      intro _
      rw [hn]
      exact Reachable.refl
    · rw [if_neg hn]
      exact fun hc => absurd rfl hc

/-- The initialisation fold only grows the key list. -/
theorem initFold_keys_mono {s : String} :
    ∀ (l : List Node) (m : List (String × WithTop ℚ)) (x : String),
      x ∈ m.map Prod.fst →
      x ∈ (l.foldl (fun m n =>
        dSet m n.id (if n.id = s then ((0 : ℚ) : WithTop ℚ) else ⊤)) m).map Prod.fst := by
  intro l
  induction l with
  | nil => exact fun m x h => h
  | cons n t ih =>
    intro m x h
    rw [List.foldl_cons]
    exact ih _ x (dSet_keys_mono h)

/-- Every node's key is present after initialisation. -/
theorem initFold_presence {s : String} :
    ∀ (l : List Node) (m : List (String × WithTop ℚ)), ∀ n ∈ l,
      n.id ∈ (l.foldl (fun m n =>
        dSet m n.id (if n.id = s then ((0 : ℚ) : WithTop ℚ) else ⊤)) m).map Prod.fst := by
  intro l
  induction l with
  | nil => exact fun m n hn => absurd hn (List.not_mem_nil n)
  | cons q t ih =>
    intro m n hn
    rw [List.foldl_cons]
    rcases List.mem_cons.mp hn with rfl | hn
    · exact initFold_keys_mono t _ n.id (dSet_key_mem m n.id _)
    · exact ih _ n hn

end PathFinder

/-- C6: `findShortestPaths` returns the empty map for an unknown source key;
for a known source, every graph node unreachable from the source appears in
the returned map with infinite distance. -/
theorem C6_unreachable_infinite (g : Graph) (s : String) (mode : Nat) :
    ((g.getNode s).isNone → PathFinder.findShortestPaths g s mode = []) ∧
    ((g.getNode s).isSome → ∀ n ∈ g.nodes, ¬ Reachable g s n.id →
      (PathFinder.findShortestPaths g s mode).find? (fun p => p.1 = n.id) =
        some (n.id, ⊤)) := by
  constructor
  · intro h
    unfold PathFinder.findShortestPaths
    rw [if_pos h]
  · intro hs n hn hnr
    have hne : ¬ (g.getNode s).isNone = true := by
      cases ho : g.getNode s with
      | none => rw [ho] at hs; cases hs
      | some v => simp
    have hres : PathFinder.findShortestPaths g s mode =
        PathFinder.fspLoop g mode g.getNodeCount
          (g.nodes.foldl (fun m n =>
            PathFinder.dSet m n.id
              (if n.id = s then ((0 : ℚ) : WithTop ℚ) else ⊤)) [])
          [] := by
      unfold PathFinder.findShortestPaths
      rw [if_neg hne]
    have hinv : ∀ p ∈ PathFinder.findShortestPaths g s mode,
        p.2 ≠ ⊤ → Reachable g s p.1 := by
      rw [hres]
      exact PathFinder.fspLoop_inv _ _ _
        (PathFinder.initFold_inv g.nodes [] (fun p hp => absurd hp (List.not_mem_nil p)))
    have hpres : n.id ∈ (PathFinder.findShortestPaths g s mode).map Prod.fst := by
      rw [hres]
      exact PathFinder.fspLoop_keys_mono _ _ _ _
        (PathFinder.initFold_presence g.nodes [] n hn)
    obtain ⟨q, hfind, hqmem, hqk⟩ := find?_key_of_mem hpres
    have hqtop : q.2 = ⊤ := by
      by_contra hc
      exact hnr (hqk ▸ hinv q hqmem hc)
    rw [hfind]
    congr 1
    calc q = (q.1, q.2) := rfl
    _ = (n.id, ⊤) := by rw [hqk, hqtop]

/-- A two-node store with no edges. -/
def fixtureNoEdges : Graph :=
  let g1 := (Graph.empty.addNode (some ⟨"X", "x"⟩)).1
  (g1.addNode (some ⟨"Y", "y"⟩)).1

/-- The edgeless fixture has empty adjacency everywhere. -/
theorem fixtureNoEdges_out (u : String) : fixtureNoEdges.getOutgoingEdges u = [] := by
  unfold Graph.getOutgoingEdges
  cases hf : fixtureNoEdges.adj.find? (fun p => p.1 = u) with
  | none => rfl
  | some p =>
    have hm : p ∈ fixtureNoEdges.adj := List.mem_of_find?_eq_some hf
    have hadj : fixtureNoEdges.adj = [("X", []), ("Y", [])] := rfl
    rw [hadj] at hm
    rcases List.mem_cons.mp hm with rfl | hm
    · rfl
    · rcases List.mem_cons.mp hm with rfl | hm
      · rfl
      · exact absurd hm (List.not_mem_nil p)

/-- In the edgeless fixture only the source is reachable. -/
theorem fixtureNoEdges_reach {t : String} (h : Reachable fixtureNoEdges "X" t) :
    t = "X" := by
  induction h with
  | refl => rfl
  | step hr he ih =>
    rw [fixtureNoEdges_out] at he
    exact absurd he (List.not_mem_nil _)

/-- Witness for `C6_unreachable_infinite` on the edgeless fixture. -/
theorem C6_unreachable_infinite_witness :
    (fixtureNoEdges.getNode "X").isSome ∧
      (⟨"Y", "y"⟩ : Node) ∈ fixtureNoEdges.nodes ∧
      ¬ Reachable fixtureNoEdges "X" "Y" ∧
      (PathFinder.findShortestPaths fixtureNoEdges "X" 0).find?
        (fun p => p.1 = "Y") = some ("Y", ⊤) := by
  have hnr : ¬ Reachable fixtureNoEdges "X" "Y" := by
    intro h
    have := fixtureNoEdges_reach h
    exact absurd this (by decide)
  exact ⟨by decide, by decide, hnr,
    (C6_unreachable_infinite fixtureNoEdges "X" 0).2 (by decide) ⟨"Y", "y"⟩
      (by decide) hnr⟩

/-!
## C4 — raw aggregate totals
-/

/-- Specification-side recursion: the three raw weight sums over the edges
looked up between consecutive nodes of a path (first matching adjacency edge,
skipped when absent). -/
def rawTotals (g : Graph) : List String → ℚ × ℚ × ℚ
  | u :: v :: rest =>
    let t := rawTotals g (v :: rest)
    match PathFinder.firstEdgeTo g u v with
    | some e => (e.weight + t.1, e.timeWeight + t.2.1, e.costWeight + t.2.2)
    | none => t
  | _ => (0, 0, 0)

/-- The metric fold of `finishSearch`, with an arbitrary accumulator, is the
accumulator plus the raw sums. -/
theorem finish_fold_eq_rawTotals (g : Graph) :
    ∀ (path : List String) (a : ℚ × ℚ × ℚ),
      ((path.zip path.tail).foldl
        (fun (acc : ℚ × ℚ × ℚ) uv =>
          match PathFinder.firstEdgeTo g uv.1 uv.2 with
          | some e => (acc.1 + e.weight, acc.2.1 + e.timeWeight, acc.2.2 + e.costWeight)
          | none => acc) a) =
      (a.1 + (rawTotals g path).1, a.2.1 + (rawTotals g path).2.1,
        a.2.2 + (rawTotals g path).2.2) := by
  intro path
  induction path with
  | nil => intro a; simp [rawTotals]
  | cons u rest ih =>
    intro a
    cases rest with
    | nil => simp [rawTotals]
    | cons v rest' =>
      have hzip : (u :: v :: rest').zip (u :: v :: rest').tail =
          (u, v) :: ((v :: rest').zip (v :: rest').tail) := rfl
      rw [hzip, List.foldl_cons]
      cases hfe : PathFinder.firstEdgeTo g u v with
      | none =>
        rw [show rawTotals g (u :: v :: rest') = rawTotals g (v :: rest') by
          conv_lhs => rw [rawTotals]
          rw [hfe]]
        exact ih a
      | some e =>
        rw [show rawTotals g (u :: v :: rest') =
            (e.weight + (rawTotals g (v :: rest')).1,
             e.timeWeight + (rawTotals g (v :: rest')).2.1,
             e.costWeight + (rawTotals g (v :: rest')).2.2) by
          conv_lhs => rw [rawTotals]
          rw [hfe]]
        rw [ih]
        refine Prod.ext ?_ (Prod.ext ?_ ?_) <;> dsimp <;> ring

/-- C4: whatever optimization mode drove the search, a found result's three
aggregate totals are the sums of the raw primary, secondary and tertiary
weights of the edges looked up along the returned path. -/
theorem C4_raw_totals (g : Graph) (s d : String) (mode : Nat) (r : PathResult)
    (h : PathFinder.findShortestPath g s d mode = some r) (hf : r.found = true) :
    r.totalDistance = (rawTotals g r.path).1 ∧
      r.totalTime = (rawTotals g r.path).2.1 ∧
      r.totalCost = (rawTotals g r.path).2.2 := by
  unfold PathFinder.findShortestPath at h
  by_cases h1 : (g.getNode s).isNone ∨ (g.getNode d).isNone
  · rw [if_pos h1] at h
    have : r = PathFinder.emptyResult := by
      injection h with h
      exact h.symm
    rw [this] at hf
    cases hf
  · rw [if_neg h1] at h
    set st := PathFinder.dijkstraLoop g d mode (PathFinder.searchFuel g)
      (PathFinder.initState g s) with hst
    by_cases h2 : st.dist d = ⊤
    · rw [if_pos h2] at h
      have : r = PathFinder.emptyResult := by
        injection h with h
        exact h.symm
      rw [this] at hf
      cases hf
    · rw [if_neg h2] at h
      set path := PathFinder.reconstructPath (PathFinder.reconFuel g) st.pred s d
        with hpath
      unfold PathFinder.finishSearch at h
      by_cases h3 : path = []
      · rw [if_pos h3] at h
        cases h
      · rw [if_neg h3] at h
        injection h with h
        rw [← h]
        refine ⟨?_, ?_, ?_⟩
        · show ((path.zip path.tail).foldl (fun (acc : ℚ × ℚ × ℚ) uv =>
              match PathFinder.firstEdgeTo g uv.1 uv.2 with
              | some e => (acc.1 + e.weight, acc.2.1 + e.timeWeight, acc.2.2 + e.costWeight)
              | none => acc) (0, 0, 0)).1 = (rawTotals g path).1
          rw [finish_fold_eq_rawTotals]
          ring
        · show ((path.zip path.tail).foldl (fun (acc : ℚ × ℚ × ℚ) uv =>
              match PathFinder.firstEdgeTo g uv.1 uv.2 with
              | some e => (acc.1 + e.weight, acc.2.1 + e.timeWeight, acc.2.2 + e.costWeight)
              | none => acc) (0, 0, 0)).2.1 = (rawTotals g path).2.1
          rw [finish_fold_eq_rawTotals]
          ring
        · show ((path.zip path.tail).foldl (fun (acc : ℚ × ℚ × ℚ) uv =>
              match PathFinder.firstEdgeTo g uv.1 uv.2 with
              | some e => (acc.1 + e.weight, acc.2.1 + e.timeWeight, acc.2.2 + e.costWeight)
              | none => acc) (0, 0, 0)).2.2 = (rawTotals g path).2.2
          rw [finish_fold_eq_rawTotals]
          ring

/-- The result record of Scenario A, used to instantiate `C4_raw_totals`. -/
def scenarioAResult : PathResult :=
  { found := true, path := ["NYC", "PHL", "DC"], totalDistance := 378,
    totalTime := 5, totalCost := 60 }

unseal Rat.add Rat.mul Rat.inv in
/-- Witness for `C4_raw_totals` on the Scenario A query. -/
theorem C4_raw_totals_witness :
    PathFinder.findShortestPath scenarioA "NYC" "DC" 0 = some scenarioAResult ∧
      scenarioAResult.found = true ∧
      (scenarioAResult.totalDistance = (rawTotals scenarioA scenarioAResult.path).1 ∧
        scenarioAResult.totalTime = (rawTotals scenarioA scenarioAResult.path).2.1 ∧
        scenarioAResult.totalCost = (rawTotals scenarioA scenarioAResult.path).2.2) :=
  have h : PathFinder.findShortestPath scenarioA "NYC" "DC" 0 =
      some scenarioAResult := by decide
  ⟨h, rfl, C4_raw_totals scenarioA "NYC" "DC" 0 scenarioAResult h rfl⟩

/-!
## C3 — broken predecessor chains
-/

/-- The reconstruction walk from `cur` hits a node with a missing predecessor
link strictly before reaching the source (within the given number of steps). -/
def chainBreaks (pred : String → Option String) (source : String) :
    Nat → String → Prop
  | 0, _ => False
  | fuel + 1, cur =>
    ¬ cur = source ∧
      (pred cur = none ∨ ∃ u, pred cur = some u ∧ chainBreaks pred source fuel u)

/-- C3 counterexample: with an empty predecessor map the reconstruction walk
from B immediately hits a missing link, `reconstructPath` returns the empty
path, and the result-assembly stage applied to it faults (the metric loop
reads `path[0]` out of bounds) instead of producing a found=false result. -/
theorem C3_counterexample :
    chainBreaks (fun _ => none) "A" 1 "B" ∧
      PathFinder.reconstructPath 1 (fun _ => none) "A" "B" = [] ∧
      PathFinder.finishSearch Graph.empty
        (PathFinder.reconstructPath 1 (fun _ => none) "A" "B") = none :=
  ⟨⟨by decide, Or.inl rfl⟩, rfl, rfl⟩

/-- C3 (amended): whenever the reconstruction walk encounters a missing
predecessor link before reaching the source, `reconstructPath` returns the
empty path; `findShortestPath`'s result assembly applied to that empty path
does not produce a not-found result but faults. -/
theorem C3_broken_chain (g : Graph) (pred : String → Option String)
    (s d : String) (fuel : Nat) (h : chainBreaks pred s fuel d) :
    PathFinder.reconstructPath fuel pred s d = [] ∧
      PathFinder.finishSearch g (PathFinder.reconstructPath fuel pred s d) = none := by
  have hgo : ∀ (f : Nat) (cur : String) (acc : List String),
      chainBreaks pred s f cur → PathFinder.reconGo pred s f cur acc = [] := by
    intro f
    induction f with
    | zero => exact fun cur acc h => absurd h (by exact fun h => h)
    | succ f ih =>
      intro cur acc h
      obtain ⟨hne, hbr⟩ := h
      show (if cur = s then acc ++ [cur]
        else match pred cur with
          | none => []
          | some u => PathFinder.reconGo pred s f u (acc ++ [cur])) = []
      rw [if_neg hne]
      rcases hbr with hnone | ⟨u, hu, hbr⟩
      · rw [hnone]
      · rw [hu]
        exact ih u _ hbr
  have h1 : PathFinder.reconstructPath fuel pred s d = [] := by
    unfold PathFinder.reconstructPath
    rw [hgo fuel d [] h]
    rfl
  rw [h1]
  exact ⟨rfl, rfl⟩

/-- Witness for `C3_broken_chain` at the empty predecessor map. -/
theorem C3_broken_chain_witness :
    chainBreaks (fun _ => none) "A" 1 "B" ∧
      (PathFinder.reconstructPath 1 (fun _ => none) "A" "B" = [] ∧
        PathFinder.finishSearch fixtureNoEdges
          (PathFinder.reconstructPath 1 (fun _ => none) "A" "B") = none) :=
  have h : chainBreaks (fun _ => none) "A" 1 "B" := ⟨by decide, Or.inl rfl⟩
  ⟨h, C3_broken_chain fixtureNoEdges (fun _ => none) "A" "B" 1 h⟩

/-!
## C1 — Dijkstra optimality

The claim is settled over an instrumented (ghost) copy of the search loop
that additionally records the set of settled nodes and whether the
destination early-exit fired; the ghost loop projects onto the code's loop.
-/

/-- A directed path realised by concrete edges of the graph. -/
inductive EdgePath (g : Graph) : String → String → List Edge → Prop where
  | nil (v : String) : EdgePath g v v []
  | cons {u v : String} {e : Edge} {p : List Edge} :
      e ∈ g.edges → e.source.id = u → EdgePath g e.destination.id v p →
      EdgePath g u v (e :: p)

namespace PathFinder

/-- The total score of an edge list under a mode's weight function. -/
def pathScore (mode : Nat) (p : List Edge) : ℚ :=
  (p.map (fun e => getEdgeWeight e mode)).sum

/-- The node-key sequence realised by an edge path starting at `u`. -/
def nodeSeq (u : String) (p : List Edge) : List String :=
  u :: p.map (fun e => e.destination.id)

theorem pathScore_nil (mode : Nat) : pathScore mode [] = 0 := rfl

theorem pathScore_cons (mode : Nat) (e : Edge) (p : List Edge) :
    pathScore mode (e :: p) = getEdgeWeight e mode + pathScore mode p := by
  unfold pathScore
  rw [List.map_cons, List.sum_cons]

theorem pathScore_append (mode : Nat) (p q : List Edge) :
    pathScore mode (p ++ q) = pathScore mode p + pathScore mode q := by
  unfold pathScore
  rw [List.map_append, List.sum_append]

/-- All three raw weights non-negative, edge by edge. -/
def NonNegWeights (g : Graph) : Prop :=
  ∀ e ∈ g.edges, 0 ≤ e.weight ∧ 0 ≤ e.timeWeight ∧ 0 ≤ e.costWeight

instance (g : Graph) : Decidable (NonNegWeights g) := by
  unfold NonNegWeights
  infer_instance

/-- Non-negative raw weights give a non-negative score under every mode. -/
theorem getEdgeWeight_nonneg {g : Graph} (hnn : NonNegWeights g) {e : Edge}
    (he : e ∈ g.edges) (mode : Nat) : 0 ≤ getEdgeWeight e mode := by
  obtain ⟨h1, h2, h3⟩ := hnn e he
  match mode with
  | 0 => exact h1
  | 1 => exact h2
  | 2 => exact h3
  | 3 =>
    show 0 ≤ (e.weight / 100 + e.timeWeight / 5 + e.costWeight / 50) / 3
    positivity
  | (n + 4) => exact h1

theorem pathScore_nonneg {g : Graph} (hnn : NonNegWeights g) (mode : Nat) :
    ∀ {u v : String} {p : List Edge}, EdgePath g u v p → 0 ≤ pathScore mode p := by
  intro u v p h
  induction h with
  | nil => exact le_refl 0
  | cons he hsrc htail ih =>
    rw [pathScore_cons]
    exact add_nonneg (getEdgeWeight_nonneg hnn he _) ih

/-- Edge paths compose. -/
theorem EdgePath.append {g : Graph} :
    ∀ {u v w : String} {p q : List Edge},
      EdgePath g u v p → EdgePath g v w q → EdgePath g u w (p ++ q) := by
  intro u v w p q h1
  induction h1 with
  | nil => exact fun h2 => h2
  | cons he hsrc htail ih => exact fun h2 => EdgePath.cons he hsrc (ih h2)

/-- The final node of an edge path's node sequence is its endpoint. -/
theorem nodeSeq_getLast {g : Graph} :
    ∀ {u v : String} {p : List Edge}, EdgePath g u v p →
      (nodeSeq u p).getLast (by unfold nodeSeq; exact List.cons_ne_nil _ _) = v := by
  intro u v p h
  induction h with
  | nil => rfl
  | cons he hsrc htail ih =>
    rename_i u' v' e p'
    show (u' :: (e :: p').map (fun e => e.destination.id)).getLast (by
      exact List.cons_ne_nil _ _) = v'
    rw [List.map_cons, List.getLast_cons (by exact List.cons_ne_nil _ _)]
    exact ih

/-- The node sequence's last entry, `Option` form. -/
theorem nodeSeq_getLast? {g : Graph} {u v : String} {p : List Edge}
    (h : EdgePath g u v p) : (nodeSeq u p).getLast? = some v := by
  have hne : nodeSeq u p ≠ [] := by
    unfold nodeSeq
    exact List.cons_ne_nil _ _
  rw [List.getLast?_eq_getLast _ hne, nodeSeq_getLast h]

/-- The ghost state: the code's loop state plus the settled list and the
early-exit flag. -/
structure GhostState where
  dist : String → WithTop ℚ
  pred : String → Option String
  pq : List (String × ℚ)
  settled : List String
  done : Bool

/-- Projection of the ghost state onto the code's state. -/
def GhostState.proj (st : GhostState) : SearchState :=
  { dist := st.dist, pred := st.pred, pq := st.pq }

/-- Ghost copy of `relaxEdge`. -/
def ghostRelaxEdge (mode : Nat) (u : String) (d : ℚ) (st : GhostState) (e : Edge) :
    GhostState :=
  let v := e.destination.id
  let nd := d + getEdgeWeight e mode
  if (nd : WithTop ℚ) < st.dist v then
    { dist := fun x => if x = v then (nd : WithTop ℚ) else st.dist x,
      pred := fun x => if x = v then some u else st.pred x,
      pq := st.pq ++ [(v, nd)],
      settled := st.settled, done := st.done }
  else st

/-- Ghost copy of `relaxAll`. -/
def ghostRelaxAll (mode : Nat) (u : String) (d : ℚ) (st : GhostState)
    (es : List Edge) : GhostState :=
  es.foldl (fun s e => ghostRelaxEdge mode u d s e) st

/-- Ghost copy of the search loop: identical transitions, plus settled/done
bookkeeping. -/
def ghostLoop (g : Graph) (dest : String) (mode : Nat) :
    Nat → GhostState → GhostState
  | 0, st => st
  | fuel + 1, st =>
    match popMin st.pq with
    | none => st
    | some ((u, d), rest) =>
      if u = dest then { st with pq := rest, done := true }
      else if (d : WithTop ℚ) > st.dist u then
        ghostLoop g dest mode fuel { st with pq := rest }
      else
        ghostLoop g dest mode fuel
          (ghostRelaxAll mode u d { st with pq := rest, settled := u :: st.settled }
            (g.getOutgoingEdges u))

theorem ghostRelaxEdge_proj (mode : Nat) (u : String) (d : ℚ) (st : GhostState)
    (e : Edge) :
    (ghostRelaxEdge mode u d st e).proj = relaxEdge mode u d st.proj e := by
  show (if ((d + getEdgeWeight e mode : ℚ) : WithTop ℚ) < st.dist e.destination.id then
      ({ dist := fun x => if x = e.destination.id
            then ((d + getEdgeWeight e mode : ℚ) : WithTop ℚ) else st.dist x,
         pred := fun x => if x = e.destination.id then some u else st.pred x,
         pq := st.pq ++ [(e.destination.id, d + getEdgeWeight e mode)],
         settled := st.settled, done := st.done } : GhostState)
     else st).proj =
    (if ((d + getEdgeWeight e mode : ℚ) : WithTop ℚ) < st.dist e.destination.id then
      ({ dist := fun x => if x = e.destination.id
            then ((d + getEdgeWeight e mode : ℚ) : WithTop ℚ) else st.dist x,
         pred := fun x => if x = e.destination.id then some u else st.pred x,
         pq := st.pq ++ [(e.destination.id, d + getEdgeWeight e mode)] } : SearchState)
     else { dist := st.dist, pred := st.pred, pq := st.pq })
  by_cases h : ((d + getEdgeWeight e mode : ℚ) : WithTop ℚ) < st.dist e.destination.id
  · rw [if_pos h, if_pos h]
    rfl
  · rw [if_neg h, if_neg h]
    rfl

theorem ghostRelaxAll_proj (mode : Nat) (u : String) (d : ℚ) :
    ∀ (es : List Edge) (st : GhostState),
      (ghostRelaxAll mode u d st es).proj = relaxAll mode u d st.proj es := by
  intro es
  induction es with
  | nil => exact fun st => rfl
  | cons e t ih =>
    intro st
    show (ghostRelaxAll mode u d (ghostRelaxEdge mode u d st e) t).proj =
      relaxAll mode u d (relaxEdge mode u d st.proj e) t
    rw [ih, ghostRelaxEdge_proj]

/-- The ghost loop projects onto the code's loop. -/
theorem ghostLoop_proj (g : Graph) (dest : String) (mode : Nat) :
    ∀ (fuel : Nat) (st : GhostState),
      (ghostLoop g dest mode fuel st).proj =
        dijkstraLoop g dest mode fuel st.proj := by
  intro fuel
  induction fuel with
  | zero => exact fun st => rfl
  | succ f ih =>
    intro st
    have hlhs : ghostLoop g dest mode (f + 1) st =
        (match popMin st.pq with
        | none => st
        | some ((u, d), rest) =>
          if u = dest then { st with pq := rest, done := true }
          else if (d : WithTop ℚ) > st.dist u then
            ghostLoop g dest mode f { st with pq := rest }
          else
            ghostLoop g dest mode f
              (ghostRelaxAll mode u d
                { st with pq := rest, settled := u :: st.settled }
                (g.getOutgoingEdges u))) := rfl
    have hrhs : dijkstraLoop g dest mode (f + 1) st.proj =
        (match popMin st.pq with
        | none => st.proj
        | some ((u, d), rest) =>
          if u = dest then { st.proj with pq := rest }
          else if (d : WithTop ℚ) > st.dist u then
            dijkstraLoop g dest mode f { st.proj with pq := rest }
          else
            dijkstraLoop g dest mode f
              (relaxAll mode u d { st.proj with pq := rest }
                (g.getOutgoingEdges u))) := rfl
    rw [hlhs, hrhs]
    cases popMin st.pq with
    | none => rfl
    | some pr =>
      obtain ⟨⟨u, d⟩, rest⟩ := pr
      show (if u = dest then ({ st with pq := rest, done := true } : GhostState)
        else if (d : WithTop ℚ) > st.dist u then
          ghostLoop g dest mode f { st with pq := rest }
        else
          ghostLoop g dest mode f
            (ghostRelaxAll mode u d
              { st with pq := rest, settled := u :: st.settled }
              (g.getOutgoingEdges u))).proj =
        (if u = dest then ({ st.proj with pq := rest } : SearchState)
        else if (d : WithTop ℚ) > st.dist u then
          dijkstraLoop g dest mode f { st.proj with pq := rest }
        else
          dijkstraLoop g dest mode f
            (relaxAll mode u d { st.proj with pq := rest }
              (g.getOutgoingEdges u)))
      by_cases h1 : u = dest
      · rw [if_pos h1, if_pos h1]
        rfl
      · rw [if_neg h1, if_neg h1]
        by_cases h2 : (d : WithTop ℚ) > st.dist u
        · rw [if_pos h2, if_pos h2, ih]
          rfl
        · rw [if_neg h2, if_neg h2, ih, ghostRelaxAll_proj]
          rfl

theorem popMin_eq_none {l : List (String × ℚ)} (h : popMin l = none) : l = [] := by
  cases l with
  | nil => rfl
  | cons x xs =>
    unfold popMin at h
    cases hxs : popMin xs with
    | none =>
      rw [hxs] at h
      cases h
    | some pr =>
      obtain ⟨y, ys⟩ := pr
      rw [hxs] at h
      have h2 : (if x.2 ≤ y.2 then some (x, xs) else some (y, x :: ys)) =
          (none : Option ((String × ℚ) × List (String × ℚ))) := h
      by_cases hc : x.2 ≤ y.2
      · rw [if_pos hc] at h2
        cases h2
      · rw [if_neg hc] at h2
        cases h2

theorem popMin_perm {l : List (String × ℚ)} {pr : String × ℚ}
    {rest : List (String × ℚ)} (h : popMin l = some (pr, rest)) :
    l.Perm (pr :: rest) := by
  induction l generalizing pr rest with
  | nil => cases h
  | cons x xs ih =>
    unfold popMin at h
    cases hxs : popMin xs with
    | none =>
      rw [hxs] at h
      have h2 : some (x, ([] : List (String × ℚ))) = some (pr, rest) := h
      injection h2 with h2
      injection h2 with h1 h2
      subst h1
      subst h2
      rw [popMin_eq_none hxs]
    | some pr' =>
      obtain ⟨y, ys⟩ := pr'
      rw [hxs] at h
      have h2 : (if x.2 ≤ y.2 then some (x, xs) else some (y, x :: ys)) =
          some (pr, rest) := h
      by_cases hc : x.2 ≤ y.2
      · rw [if_pos hc] at h2
        injection h2 with h2
        injection h2 with h1 h2
        subst h1
        subst h2
        exact List.Perm.refl _
      · rw [if_neg hc] at h2
        injection h2 with h2
        injection h2 with h1 h2
        subst h1
        subst h2
        exact ((ih hxs).cons x).trans (List.Perm.swap _ _ _)

theorem popMin_min {l : List (String × ℚ)} {pr : String × ℚ}
    {rest : List (String × ℚ)} (h : popMin l = some (pr, rest)) :
    ∀ q ∈ l, pr.2 ≤ q.2 := by
  induction l generalizing pr rest with
  | nil => cases h
  | cons x xs ih =>
    unfold popMin at h
    cases hxs : popMin xs with
    | none =>
      rw [hxs] at h
      have h2 : some (x, ([] : List (String × ℚ))) = some (pr, rest) := h
      injection h2 with h2
      injection h2 with h1 h2
      subst h1
      intro q hq
      rcases List.mem_cons.mp hq with rfl | hq
      · exact le_refl _
      · rw [popMin_eq_none hxs] at hq
        cases hq
    | some pr' =>
      obtain ⟨y, ys⟩ := pr'
      rw [hxs] at h
      have h2 : (if x.2 ≤ y.2 then some (x, xs) else some (y, x :: ys)) =
          some (pr, rest) := h
      by_cases hc : x.2 ≤ y.2
      · rw [if_pos hc] at h2
        injection h2 with h2
        injection h2 with h1 h2
        subst h1
        intro q hq
        rcases List.mem_cons.mp hq with rfl | hq
        · exact le_refl _
        · exact le_trans hc (ih hxs q hq)
      · rw [if_neg hc] at h2
        injection h2 with h2
        injection h2 with h1 h2
        subst h1
        intro q hq
        rcases List.mem_cons.mp hq with rfl | hq
        · exact le_of_lt (lt_of_not_le hc)
        · exact ih hxs q hq

/-- In a well-formed store, adjacency membership certifies edge membership
and the source key. -/
theorem mem_out_edges {g : Graph} (hsi : StoreInv g) {u : String} {e : Edge}
    (he : e ∈ g.getOutgoingEdges u) : e ∈ g.edges ∧ e.source.id = u := by
  obtain ⟨-, -, -, -, hsound, -⟩ := hsi
  unfold Graph.getOutgoingEdges at he
  cases hf : g.adj.find? (fun p => p.1 = u) with
  | none =>
    rw [hf] at he
    cases he
  | some p =>
    rw [hf] at he
    have hb := List.find?_some hf
    have hpk : p.1 = u := of_decide_eq_true hb
    obtain ⟨h1, h2⟩ := hsound p (List.mem_of_find?_eq_some hf) e he
    exact ⟨h1, hpk ▸ h2⟩

/-- In a well-formed store, every edge is in its source's adjacency list. -/
theorem edges_mem_out {g : Graph} (hsi : StoreInv g) {e : Edge}
    (he : e ∈ g.edges) : e ∈ g.getOutgoingEdges e.source.id := by
  obtain ⟨-, -, -, -, -, honce⟩ := hsi
  have := honce e he
  have hpos : 0 < (g.getOutgoingEdges e.source.id).count e := by
    rw [this]
    exact Nat.one_pos
  exact List.count_pos_iff_mem.mp hpos

/-- Updating the predecessor map at a key outside a list preserves its link
chain. -/
theorem chain_update {pred : String → Option String} {v u : String} :
    ∀ {l : List String}, v ∉ l →
      List.Chain' (fun a b => pred b = some a) l →
      List.Chain' (fun a b => (if b = v then some u else pred b) = some a) l := by
  intro l
  induction l with
  | nil => exact fun _ _ => List.chain'_nil
  | cons x t ih =>
    intro hv hc
    cases t with
    | nil => exact List.chain'_singleton x
    | cons y t' =>
      rw [List.chain'_cons] at hc ⊢
      refine ⟨?_, ih (fun hm => hv (List.mem_cons_of_mem _ hm)) hc.2⟩
      have hy : ¬ y = v := by
        intro hyv
        exact hv (hyv ▸ List.mem_cons_of_mem _ (List.mem_cons_self _ _))
      rw [if_neg hy]
      exact hc.1

/-- The reconstruction walk with an arbitrary accumulator, in terms of the
empty-accumulator walk. -/
theorem reconGo_acc (pred : String → Option String) (src : String) :
    ∀ (f : Nat) (u : String) (acc : List String),
      reconGo pred src f u acc =
        (if reconGo pred src f u [] = [] then []
         else acc ++ reconGo pred src f u []) := by
  intro f
  induction f with
  | zero =>
    intro u acc
    simp [reconGo]
  | succ f ih =>
    intro u acc
    by_cases hu : u = src
    · have h1 : reconGo pred src (f + 1) u acc = acc ++ [u] := by
        show (if u = src then acc ++ [u] else match pred u with
          | none => []
          | some w => reconGo pred src f w (acc ++ [u])) = acc ++ [u]
        rw [if_pos hu]
      have h2 : reconGo pred src (f + 1) u [] = [] ++ [u] := by
        show (if u = src then [] ++ [u] else match pred u with
          | none => []
          | some w => reconGo pred src f w ([] ++ [u])) = [] ++ [u]
        rw [if_pos hu]
      rw [h1, h2]
      simp
    · cases hp : pred u with
      | none =>
        have h1 : reconGo pred src (f + 1) u acc = [] := by
          show (if u = src then acc ++ [u] else match pred u with
            | none => []
            | some w => reconGo pred src f w (acc ++ [u])) = []
          rw [if_neg hu, hp]
        have h2 : reconGo pred src (f + 1) u [] = [] := by
          show (if u = src then [] ++ [u] else match pred u with
            | none => []
            | some w => reconGo pred src f w ([] ++ [u])) = []
          rw [if_neg hu, hp]
        rw [h1, h2]
        simp
      | some w =>
        have h1 : reconGo pred src (f + 1) u acc = reconGo pred src f w (acc ++ [u]) := by
          show (if u = src then acc ++ [u] else match pred u with
            | none => []
            | some w => reconGo pred src f w (acc ++ [u])) =
              reconGo pred src f w (acc ++ [u])
          rw [if_neg hu, hp]
        have h2 : reconGo pred src (f + 1) u [] = reconGo pred src f w ([] ++ [u]) := by
          show (if u = src then [] ++ [u] else match pred u with
            | none => []
            | some w => reconGo pred src f w ([] ++ [u])) =
              reconGo pred src f w ([] ++ [u])
          rw [if_neg hu, hp]
        rw [h1, h2, ih w (acc ++ [u]), ih w ([] ++ [u])]
        by_cases hw : reconGo pred src f w [] = []
        · rw [if_pos hw, if_pos hw]
          simp
        · rw [if_neg hw, if_neg hw, if_neg (by simp [hw])]
          simp

/-- Walking a duplicate-free predecessor chain from its end reproduces it,
given enough fuel. -/
theorem recon_of_chain {pred : String → Option String} {src : String} :
    ∀ (ns : List String), ns ≠ [] → ns.head? = some src → ns.Nodup →
      List.Chain' (fun a b => pred b = some a) ns →
      ∀ (v : String), ns.getLast? = some v →
      ∀ (f : Nat), ns.length ≤ f →
        reconstructPath f pred src v = ns := by
  intro ns
  induction ns using List.reverseRecOn with
  | nil => exact fun h => absurd rfl h
  | append_singleton l w ihl =>
    intro hne hhead hnodup hchain v hlast f hf
    rw [List.getLast?_concat] at hlast
    injection hlast with hlast
    subst hlast
    cases l with
    | nil =>
      have hsrc : w = src := by
        simpa using hhead
      obtain ⟨f', rfl⟩ : ∃ f', f = f' + 1 := by
        cases f with
        | zero =>
          rw [List.length_append] at hf
          simp at hf
        | succ f' => exact ⟨f', rfl⟩
      unfold reconstructPath
      show (if w = src then ([] : List String) ++ [w]
        else match pred w with
          | none => []
          | some w' => reconGo pred src f' w' ([] ++ [w])).reverse = [] ++ [w]
      rw [if_pos hsrc]
      simp
    | cons x t =>
      have hlne : (x :: t : List String) ≠ [] := List.cons_ne_nil _ _
      have hheadl : (x :: t : List String).head? = some src := by
        have : ((x :: t) ++ [w]).head? = some x := rfl
        rw [this] at hhead
        injection hhead with hhead
        rw [List.head?_cons, hhead]
      rw [List.nodup_append] at hnodup
      have hvnot : w ∉ (x :: t : List String) := by
        intro hv
        exact hnodup.2.2 hv (List.mem_singleton_self w)
      have hvnotsrc : ¬ w = src := by
        intro hvs
        have hsrcmem : src ∈ (x :: t : List String) :=
          List.mem_of_mem_head? hheadl
        exact hvnot (hvs ▸ hsrcmem)
      have hchains := List.chain'_append.mp hchain
      have hlast' : (x :: t : List String).getLast? = some ((x :: t).getLast hlne) :=
        List.getLast?_eq_getLast _ hlne
      have hlink : pred w = some ((x :: t).getLast hlne) := by
        refine hchains.2.2 _ ?_ w rfl
        rw [hlast']
        rfl
      obtain ⟨f', rfl⟩ : ∃ f', f = f' + 1 := by
        cases f with
        | zero =>
          rw [List.length_append] at hf
          simp at hf
        | succ f' => exact ⟨f', rfl⟩
      have hf' : (x :: t : List String).length ≤ f' := by
        rw [List.length_append] at hf
        simp only [List.length_singleton] at hf
        omega
      have hih : reconstructPath f' pred src ((x :: t).getLast hlne) = x :: t :=
        ihl hlne hheadl hnodup.1 hchains.1 _ hlast' f' hf'
      have hihgo : reconGo pred src f' ((x :: t).getLast hlne) [] = (x :: t).reverse := by
        unfold reconstructPath at hih
        exact List.reverse_eq_iff.mp hih
      have h1 : reconGo pred src (f' + 1) w [] =
          reconGo pred src f' ((x :: t).getLast hlne) ([] ++ [w]) := by
        show (if w = src then ([] : List String) ++ [w]
          else match pred w with
            | none => []
            | some w' => reconGo pred src f' w' ([] ++ [w])) =
              reconGo pred src f' ((x :: t).getLast hlne) ([] ++ [w])
        rw [if_neg hvnotsrc, hlink]
      unfold reconstructPath
      rw [h1, reconGo_acc, hihgo]
      rw [if_neg (by simp)]
      simp

/-- The node-key table of a graph. -/
def nodeIds (g : Graph) : List String := g.nodes.map Node.id

/-- The boolean node-table test of `initState`, in terms of `nodeIds`. -/
theorem nodeIds_any {g : Graph} {v : String} :
    g.nodes.any (fun n => n.id = v) = true ↔ v ∈ nodeIds g := by
  rw [List.any_eq_true]
  constructor
  · rintro ⟨n, hn, hnv⟩
    exact List.mem_map.mpr ⟨n, hn, of_decide_eq_true hnv⟩
  · intro hv
    obtain ⟨n, hn, hnv⟩ := List.mem_map.mp hv
    exact ⟨n, hn, decide_eq_true hnv⟩

/-- Edge destinations resolve to present nodes. -/
theorem edge_dest_mem {g : Graph} (hsi : StoreInv g) {e : Edge}
    (he : e ∈ g.edges) : e.destination.id ∈ nodeIds g :=
  (hsi.2.2.2.1 e he).2

/-- Edge sources resolve to present nodes. -/
theorem edge_src_mem {g : Graph} (hsi : StoreInv g) {e : Edge}
    (he : e ∈ g.edges) : e.source.id ∈ nodeIds g :=
  (hsi.2.2.2.1 e he).1

/-- Every node key on a path from a present node is present. -/
theorem nodeSeq_subset {g : Graph} (hsi : StoreInv g) :
    ∀ {u v : String} {p : List Edge}, EdgePath g u v p → u ∈ nodeIds g →
      ∀ x ∈ nodeSeq u p, x ∈ nodeIds g := by
  intro u v p h
  induction h with
  | nil =>
    intro hu x hx
    rcases List.mem_cons.mp hx with rfl | hx
    · exact hu
    · cases hx
  | cons he hsrc htail ih =>
    intro hu x hx
    rcases List.mem_cons.mp hx with rfl | hx
    · exact hu
    · exact ih (edge_dest_mem hsi he) x hx

/-- A list ends in its `getLast?` entry. -/
theorem dropLast_concat_getLast? {α : Type} {l : List α} {v : α}
    (h : l.getLast? = some v) : l.dropLast ++ [v] = l := by
  have hne : l ≠ [] := by
    rintro rfl
    cases h
  rw [List.getLast?_eq_getLast _ hne] at h
  injection h with h
  rw [← h]
  exact List.dropLast_append_getLast hne

/-- The node sequence of a path splits off its endpoint. -/
theorem nodeSeq_decomp {g : Graph} {u v : String} {p : List Edge}
    (h : EdgePath g u v p) :
    nodeSeq u p = (nodeSeq u p).dropLast ++ [v] :=
  (dropLast_concat_getLast? (nodeSeq_getLast? h)).symm

/-- Peeling the final edge off a path. -/
theorem EdgePath.snoc_inv {g : Graph} :
    ∀ {p : List Edge} {u v : String} {e : Edge}, EdgePath g u v (p ++ [e]) →
      EdgePath g u e.source.id p ∧ e ∈ g.edges ∧ v = e.destination.id := by
  intro p
  induction p with
  | nil =>
    intro u v e h
    cases h with
    | cons he hsrc htail =>
      cases htail
      refine ⟨?_, he, rfl⟩
      rw [hsrc]
      exact EdgePath.nil u
  | cons e' p' ih =>
    intro u v e h
    cases h with
    | cons he' hsrc' htail =>
      obtain ⟨h1, h2, h3⟩ := ih htail
      exact ⟨EdgePath.cons he' hsrc' h1, h2, h3⟩

/-- The node sequence of a path extended by one edge. -/
theorem nodeSeq_concat (u : String) (p : List Edge) (e : Edge) :
    nodeSeq u (p ++ [e]) = nodeSeq u p ++ [e.destination.id] := by
  unfold nodeSeq
  rw [List.map_append]
  rfl

/-- The improved state produced by a successful relaxation. -/
def improveState (mode : Nat) (u : String) (d : ℚ) (st : GhostState) (e : Edge) :
    GhostState :=
  { dist := fun x => if x = e.destination.id
      then ((d + getEdgeWeight e mode : ℚ) : WithTop ℚ) else st.dist x,
    pred := fun x => if x = e.destination.id then some u else st.pred x,
    pq := st.pq ++ [(e.destination.id, d + getEdgeWeight e mode)],
    settled := st.settled, done := st.done }

theorem improveState_dist (mode : Nat) (u : String) (d : ℚ) (st : GhostState)
    (e : Edge) (x : String) :
    (improveState mode u d st e).dist x = if x = e.destination.id
      then ((d + getEdgeWeight e mode : ℚ) : WithTop ℚ) else st.dist x := rfl

theorem improveState_pred (mode : Nat) (u : String) (d : ℚ) (st : GhostState)
    (e : Edge) (x : String) :
    (improveState mode u d st e).pred x = if x = e.destination.id
      then some u else st.pred x := rfl

theorem improveState_pq (mode : Nat) (u : String) (d : ℚ) (st : GhostState)
    (e : Edge) :
    (improveState mode u d st e).pq =
      st.pq ++ [(e.destination.id, d + getEdgeWeight e mode)] := rfl

theorem improveState_settled (mode : Nat) (u : String) (d : ℚ) (st : GhostState)
    (e : Edge) : (improveState mode u d st e).settled = st.settled := rfl

theorem improveState_done (mode : Nat) (u : String) (d : ℚ) (st : GhostState)
    (e : Edge) : (improveState mode u d st e).done = st.done := rfl

/-- The relaxation step as a plain conditional. -/
theorem ghostRelaxEdge_eq (mode : Nat) (u : String) (d : ℚ) (st : GhostState)
    (e : Edge) :
    ghostRelaxEdge mode u d st e =
      if ((d + getEdgeWeight e mode : ℚ) : WithTop ℚ) < st.dist e.destination.id
      then improveState mode u d st e else st := rfl

/-- A relaxation step either leaves the state alone or improves the
neighbour. -/
theorem ghostRelaxEdge_cases (mode : Nat) (u : String) (d : ℚ) (st : GhostState)
    (e : Edge) :
    (¬ ((d + getEdgeWeight e mode : ℚ) : WithTop ℚ) < st.dist e.destination.id ∧
      ghostRelaxEdge mode u d st e = st) ∨
    (((d + getEdgeWeight e mode : ℚ) : WithTop ℚ) < st.dist e.destination.id ∧
      ghostRelaxEdge mode u d st e = improveState mode u d st e) := by
  rw [ghostRelaxEdge_eq]
  by_cases h : ((d + getEdgeWeight e mode : ℚ) : WithTop ℚ) < st.dist e.destination.id
  · right
    exact ⟨h, if_pos h⟩
  · left
    exact ⟨h, if_neg h⟩

/-- Relaxation never raises a tentative distance. -/
theorem ghostRelaxEdge_dist_mono (mode : Nat) (u : String) (d : ℚ)
    (st : GhostState) (e : Edge) (x : String) :
    (ghostRelaxEdge mode u d st e).dist x ≤ st.dist x := by
  rcases ghostRelaxEdge_cases mode u d st e with ⟨-, heq⟩ | ⟨himp, heq⟩
  · rw [heq]
  · rw [heq, improveState_dist]
    by_cases hx : x = e.destination.id
    · rw [if_pos hx, hx]
      exact le_of_lt himp
    · rw [if_neg hx]

/-- Relaxation leaves the settled list alone. -/
theorem ghostRelaxEdge_settled (mode : Nat) (u : String) (d : ℚ)
    (st : GhostState) (e : Edge) :
    (ghostRelaxEdge mode u d st e).settled = st.settled := by
  rcases ghostRelaxEdge_cases mode u d st e with ⟨-, heq⟩ | ⟨-, heq⟩ <;> rw [heq]
  rfl

/-- Relaxation leaves the break flag alone. -/
theorem ghostRelaxEdge_done (mode : Nat) (u : String) (d : ℚ)
    (st : GhostState) (e : Edge) :
    (ghostRelaxEdge mode u d st e).done = st.done := by
  rcases ghostRelaxEdge_cases mode u d st e with ⟨-, heq⟩ | ⟨-, heq⟩ <;> rw [heq]
  rfl

/-- Relaxation pushes at most one queue entry. -/
theorem ghostRelaxEdge_pq_len (mode : Nat) (u : String) (d : ℚ)
    (st : GhostState) (e : Edge) :
    (ghostRelaxEdge mode u d st e).pq.length ≤ st.pq.length + 1 := by
  rcases ghostRelaxEdge_cases mode u d st e with ⟨-, heq⟩ | ⟨-, heq⟩ <;> rw [heq]
  · exact Nat.le_succ _
  · rw [improveState_pq, List.length_append]
    exact le_refl _

/-- The edge fold, one step at a time. -/
theorem ghostRelaxAll_cons (mode : Nat) (u : String) (d : ℚ) (st : GhostState)
    (e : Edge) (es : List Edge) :
    ghostRelaxAll mode u d st (e :: es) =
      ghostRelaxAll mode u d (ghostRelaxEdge mode u d st e) es := rfl

/-- The edge fold leaves the settled list alone. -/
theorem ghostRelaxAll_settled (mode : Nat) (u : String) (d : ℚ) :
    ∀ (es : List Edge) (st : GhostState),
      (ghostRelaxAll mode u d st es).settled = st.settled := by
  intro es
  induction es with
  | nil => exact fun st => rfl
  | cons e t ih =>
    intro st
    rw [ghostRelaxAll_cons, ih, ghostRelaxEdge_settled]

/-- The edge fold leaves the break flag alone. -/
theorem ghostRelaxAll_done (mode : Nat) (u : String) (d : ℚ) :
    ∀ (es : List Edge) (st : GhostState),
      (ghostRelaxAll mode u d st es).done = st.done := by
  intro es
  induction es with
  | nil => exact fun st => rfl
  | cons e t ih =>
    intro st
    rw [ghostRelaxAll_cons, ih, ghostRelaxEdge_done]

/-- The edge fold pushes at most one entry per edge. -/
theorem ghostRelaxAll_pq_len (mode : Nat) (u : String) (d : ℚ) :
    ∀ (es : List Edge) (st : GhostState),
      (ghostRelaxAll mode u d st es).pq.length ≤ st.pq.length + es.length := by
  intro es
  induction es with
  | nil => exact fun st => le_refl _
  | cons e t ih =>
    intro st
    rw [ghostRelaxAll_cons]
    calc (ghostRelaxAll mode u d (ghostRelaxEdge mode u d st e) t).pq.length
        ≤ (ghostRelaxEdge mode u d st e).pq.length + t.length := ih _
      _ ≤ st.pq.length + 1 + t.length :=
          Nat.add_le_add_right (ghostRelaxEdge_pq_len mode u d st e) _
      _ = st.pq.length + (e :: t).length := by
          rw [List.length_cons]
          omega

/-- A fold whose every step fails the improvement test is the identity. -/
theorem ghostRelaxAll_id (mode : Nat) (u : String) (d : ℚ) :
    ∀ (es : List Edge) (st : GhostState),
      (∀ e ∈ es,
        ¬ ((d + getEdgeWeight e mode : ℚ) : WithTop ℚ) < st.dist e.destination.id) →
      ghostRelaxAll mode u d st es = st := by
  intro es
  induction es with
  | nil => exact fun st _ => rfl
  | cons e t ih =>
    intro st h
    rw [ghostRelaxAll_cons]
    have he : ghostRelaxEdge mode u d st e = st := by
      rcases ghostRelaxEdge_cases mode u d st e with ⟨-, heq⟩ | ⟨himp, -⟩
      · exact heq
      · exact absurd himp (h e (List.mem_cons_self _ _))
    rw [he]
    exact ih st (fun e' he' => h e' (List.mem_cons_of_mem _ he'))

/-- The certified predecessor chain of a finite-distance node: a real path
from the source realising the recorded distance, predecessor-linked,
duplicate-free, with every node but its endpoint settled. -/
def ChainProp (g : Graph) (s : String) (mode : Nat) (st : GhostState)
    (v : String) : Prop :=
  ∃ p, EdgePath g s v p ∧
    st.dist v = ((pathScore mode p : ℚ) : WithTop ℚ) ∧
    List.Chain' (fun a b => st.pred b = some a) (nodeSeq s p) ∧
    (nodeSeq s p).Nodup ∧
    ∀ x ∈ (nodeSeq s p).dropLast, x ∈ st.settled

/-- The search-loop invariant of the instrumented Dijkstra loop. -/
structure Inv (g : Graph) (s : String) (mode : Nat) (st : GhostState) : Prop where
  dist0 : st.dist s ≤ ((0 : ℚ) : WithTop ℚ)
  pqNodes : ∀ pr ∈ st.pq, pr.1 ∈ nodeIds g
  pqGe : ∀ pr ∈ st.pq, st.dist pr.1 ≤ ((pr.2 : ℚ) : WithTop ℚ)
  pqWitness : ∀ v ∈ nodeIds g, v ∉ st.settled → st.dist v ≠ ⊤ →
    ∃ dv : ℚ, st.dist v = ((dv : ℚ) : WithTop ℚ) ∧ (v, dv) ∈ st.pq
  settledNodes : ∀ v ∈ st.settled, v ∈ nodeIds g
  settledFin : ∀ v ∈ st.settled, st.dist v ≠ ⊤
  settledOpt : ∀ v ∈ st.settled, ∀ q, EdgePath g s v q →
    st.dist v ≤ ((pathScore mode q : ℚ) : WithTop ℚ)
  relaxed : ∀ x ∈ st.settled, ∀ e ∈ g.getOutgoingEdges x,
    st.dist e.destination.id ≤ st.dist x + ((getEdgeWeight e mode : ℚ) : WithTop ℚ)
  chain : ∀ v ∈ nodeIds g, st.dist v ≠ ⊤ → ChainProp g s mode st v

/-- The invariant as it stands while the edges of a freshly settled node `u0`
are being relaxed: `relaxed` is only guaranteed for edges already processed
(those outside `rem`). -/
structure InvR (g : Graph) (s : String) (mode : Nat) (u0 : String)
    (rem : List Edge) (st : GhostState) : Prop where
  dist0 : st.dist s ≤ ((0 : ℚ) : WithTop ℚ)
  pqNodes : ∀ pr ∈ st.pq, pr.1 ∈ nodeIds g
  pqGe : ∀ pr ∈ st.pq, st.dist pr.1 ≤ ((pr.2 : ℚ) : WithTop ℚ)
  pqWitness : ∀ v ∈ nodeIds g, v ∉ st.settled → st.dist v ≠ ⊤ →
    ∃ dv : ℚ, st.dist v = ((dv : ℚ) : WithTop ℚ) ∧ (v, dv) ∈ st.pq
  settledNodes : ∀ v ∈ st.settled, v ∈ nodeIds g
  settledFin : ∀ v ∈ st.settled, st.dist v ≠ ⊤
  settledOpt : ∀ v ∈ st.settled, ∀ q, EdgePath g s v q →
    st.dist v ≤ ((pathScore mode q : ℚ) : WithTop ℚ)
  relaxedR : ∀ x ∈ st.settled, ∀ e ∈ g.getOutgoingEdges x, (x = u0 → e ∉ rem) →
    st.dist e.destination.id ≤ st.dist x + ((getEdgeWeight e mode : ℚ) : WithTop ℚ)
  chain : ∀ v ∈ nodeIds g, st.dist v ≠ ⊤ → ChainProp g s mode st v

/-- A fully relaxed mid-fold invariant is the plain invariant. -/
theorem InvR.toInv {g : Graph} {s : String} {mode : Nat} {u0 : String}
    {st : GhostState} (h : InvR g s mode u0 [] st) : Inv g s mode st :=
  ⟨h.dist0, h.pqNodes, h.pqGe, h.pqWitness, h.settledNodes, h.settledFin,
    h.settledOpt,
    fun x hx e he => h.relaxedR x hx e he (fun _ => List.not_mem_nil e),
    h.chain⟩

/-- The frontier covers every path: a source-rooted path either ends settled
with its score dominating the recorded distance, or passes through a queued
node whose queued value its score dominates. -/
theorem frontier_cover {g : Graph} {s : String} {mode : Nat} {st : GhostState}
    (hsi : StoreInv g) (hnn : NonNegWeights g) (hs : s ∈ nodeIds g)
    (hinv : Inv g s mode st) :
    ∀ (p : List Edge) (v : String), EdgePath g s v p →
      (v ∈ st.settled ∧ st.dist v ≤ ((pathScore mode p : ℚ) : WithTop ℚ)) ∨
      (∃ y dy, st.dist y = ((dy : ℚ) : WithTop ℚ) ∧ (y, dy) ∈ st.pq ∧
        dy ≤ pathScore mode p) := by
  intro p
  induction p using List.reverseRecOn with
  | nil =>
    intro v h
    cases h
    rw [pathScore_nil]
    by_cases hset : s ∈ st.settled
    · exact Or.inl ⟨hset, hinv.dist0⟩
    · right
      have hfin : st.dist s ≠ ⊤ := by
        intro htop
        have hd0 := hinv.dist0
        rw [htop, top_le_iff] at hd0
        exact WithTop.coe_ne_top hd0
      obtain ⟨dv, hdv, hmem⟩ := hinv.pqWitness s hs hset hfin
      refine ⟨s, dv, hdv, hmem, ?_⟩
      have := hinv.dist0
      rw [hdv] at this
      exact_mod_cast this
  | append_singleton q e ih =>
    intro v h
    obtain ⟨hq, he, rfl⟩ := EdgePath.snoc_inv h
    have hw : 0 ≤ getEdgeWeight e mode := getEdgeWeight_nonneg hnn he mode
    have hscore : pathScore mode (q ++ [e]) =
        pathScore mode q + getEdgeWeight e mode := by
      rw [pathScore_append, pathScore_cons, pathScore_nil, add_zero]
    rcases ih e.source.id hq with ⟨hset, hle⟩ | ⟨y, dy, hdy, hmem, hle⟩
    · have hout : e ∈ g.getOutgoingEdges e.source.id := edges_mem_out hsi he
      have hbound : st.dist e.destination.id ≤
          ((pathScore mode (q ++ [e]) : ℚ) : WithTop ℚ) := by
        calc st.dist e.destination.id
            ≤ st.dist e.source.id + ((getEdgeWeight e mode : ℚ) : WithTop ℚ) :=
              hinv.relaxed e.source.id hset e hout
          _ ≤ ((pathScore mode q : ℚ) : WithTop ℚ) +
              ((getEdgeWeight e mode : ℚ) : WithTop ℚ) :=
              add_le_add_right hle _
          _ = ((pathScore mode (q ++ [e]) : ℚ) : WithTop ℚ) := by
              rw [hscore]
              exact (WithTop.coe_add _ _).symm
      by_cases hvset : e.destination.id ∈ st.settled
      · exact Or.inl ⟨hvset, hbound⟩
      · right
        have hfin : st.dist e.destination.id ≠ ⊤ := by
          intro htop
          rw [htop, top_le_iff] at hbound
          exact WithTop.coe_ne_top hbound
        have hvN : e.destination.id ∈ nodeIds g := edge_dest_mem hsi he
        obtain ⟨dv, hdv, hmem⟩ := hinv.pqWitness _ hvN hvset hfin
        refine ⟨_, dv, hdv, hmem, ?_⟩
        rw [hdv] at hbound
        exact_mod_cast hbound
    · refine Or.inr ⟨y, dy, hdy, hmem, le_trans hle ?_⟩
      rw [hscore]
      linarith

/-- Whatever entry the queue yields as its minimum, the recorded distance of
its key is optimal. -/
theorem pop_optimal {g : Graph} {s : String} {mode : Nat} {st : GhostState}
    {u : String} {d : ℚ} {rest : List (String × ℚ)}
    (hsi : StoreInv g) (hnn : NonNegWeights g) (hs : s ∈ nodeIds g)
    (hinv : Inv g s mode st) (hpop : popMin st.pq = some ((u, d), rest)) :
    ∀ p, EdgePath g s u p → st.dist u ≤ ((pathScore mode p : ℚ) : WithTop ℚ) := by
  intro p hp
  rcases frontier_cover hsi hnn hs hinv p u hp with ⟨-, hle⟩ | ⟨y, dy, hdy, hmem, hle⟩
  · exact hle
  · have h1 : st.dist u ≤ ((d : ℚ) : WithTop ℚ) :=
      hinv.pqGe (u, d) ((popMin_perm hpop).mem_iff.mpr (List.mem_cons_self _ _))
    have h2 : d ≤ dy := popMin_min hpop (y, dy) hmem
    calc st.dist u ≤ ((d : ℚ) : WithTop ℚ) := h1
      _ ≤ ((dy : ℚ) : WithTop ℚ) := by exact_mod_cast h2
      _ ≤ ((pathScore mode p : ℚ) : WithTop ℚ) := by exact_mod_cast hle

/-- Popping a stale entry preserves the invariant. -/
theorem stale_inv {g : Graph} {s : String} {mode : Nat} {st : GhostState}
    {u : String} {d : ℚ} {rest : List (String × ℚ)}
    (hinv : Inv g s mode st) (hpop : popMin st.pq = some ((u, d), rest))
    (hstale : st.dist u < ((d : ℚ) : WithTop ℚ)) :
    Inv g s mode { st with pq := rest } := by
  have hperm := popMin_perm hpop
  have hmemrest : ∀ pr ∈ rest, pr ∈ st.pq :=
    fun pr hpr => hperm.mem_iff.mpr (List.mem_cons_of_mem _ hpr)
  refine ⟨hinv.dist0, ?_, ?_, ?_, hinv.settledNodes, hinv.settledFin,
    hinv.settledOpt, hinv.relaxed, hinv.chain⟩
  · exact fun pr hpr => hinv.pqNodes pr (hmemrest pr hpr)
  · exact fun pr hpr => hinv.pqGe pr (hmemrest pr hpr)
  · intro v hvN hvset hvfin
    obtain ⟨dv, hdv, hmem⟩ := hinv.pqWitness v hvN hvset hvfin
    refine ⟨dv, hdv, ?_⟩
    rcases List.mem_cons.mp (hperm.mem_iff.mp hmem) with heq | h
    · injection heq with h1 h2
      subst h1
      subst h2
      rw [hdv] at hstale
      exact absurd hstale (lt_irrefl _)
    · exact h

/-- Settling the freshly popped minimum establishes the mid-fold invariant
for its edge list. -/
theorem settle_inv {g : Graph} {s : String} {mode : Nat} {st : GhostState}
    {u : String} {d : ℚ} {rest : List (String × ℚ)}
    (hsi : StoreInv g) (hnn : NonNegWeights g) (hs : s ∈ nodeIds g)
    (hinv : Inv g s mode st) (hpop : popMin st.pq = some ((u, d), rest))
    (hdu : st.dist u = ((d : ℚ) : WithTop ℚ)) :
    InvR g s mode u (g.getOutgoingEdges u)
      { st with pq := rest, settled := u :: st.settled } := by
  have hperm := popMin_perm hpop
  have hmemrest : ∀ pr ∈ rest, pr ∈ st.pq :=
    fun pr hpr => hperm.mem_iff.mpr (List.mem_cons_of_mem _ hpr)
  have huN : u ∈ nodeIds g :=
    hinv.pqNodes (u, d) (hperm.mem_iff.mpr (List.mem_cons_self _ _))
  have hopt := pop_optimal hsi hnn hs hinv hpop
  refine ⟨hinv.dist0, ?_, ?_, ?_, ?_, ?_, ?_, ?_, ?_⟩
  · exact fun pr hpr => hinv.pqNodes pr (hmemrest pr hpr)
  · exact fun pr hpr => hinv.pqGe pr (hmemrest pr hpr)
  · intro v hvN hvset hvfin
    have hvu : v ≠ u := fun h => hvset (h ▸ List.mem_cons_self _ _)
    have hvset' : v ∉ st.settled := fun h => hvset (List.mem_cons_of_mem _ h)
    obtain ⟨dv, hdv, hmem⟩ := hinv.pqWitness v hvN hvset' hvfin
    refine ⟨dv, hdv, ?_⟩
    rcases List.mem_cons.mp (hperm.mem_iff.mp hmem) with heq | h
    · injection heq with h1 h2
      exact absurd h1 hvu
    · exact h
  · intro v hv
    rcases List.mem_cons.mp hv with rfl | h
    · exact huN
    · exact hinv.settledNodes v h
  · intro v hv
    rcases List.mem_cons.mp hv with rfl | h
    · rw [hdu]
      exact WithTop.coe_ne_top
    · exact hinv.settledFin v h
  · intro v hv q hq
    rcases List.mem_cons.mp hv with rfl | h
    · exact hopt q hq
    · exact hinv.settledOpt v h q hq
  · intro x hx e he hcond
    rcases List.mem_cons.mp hx with rfl | h
    · exact absurd he (hcond rfl)
    · exact hinv.relaxed x h e he
  · intro v hvN hvfin
    obtain ⟨p, h1, h2, h3, h4, h5⟩ := hinv.chain v hvN hvfin
    exact ⟨p, h1, h2, h3, h4, fun x hx => List.mem_cons_of_mem _ (h5 x hx)⟩

/-- One relaxation step from a freshly settled node preserves the mid-fold
invariant, consuming its edge from the remaining-work list. -/
theorem relax_step {g : Graph} {s : String} {mode : Nat} {st : GhostState}
    {u : String} {d : ℚ} {e : Edge} {rem : List Edge}
    (hsi : StoreInv g) (hnn : NonNegWeights g) (hs : s ∈ nodeIds g)
    (hu : u ∈ st.settled) (hdu : st.dist u = ((d : ℚ) : WithTop ℚ))
    (he : e ∈ g.getOutgoingEdges u)
    (hinv : InvR g s mode u (e :: rem) st) :
    InvR g s mode u rem (ghostRelaxEdge mode u d st e) ∧
    (ghostRelaxEdge mode u d st e).settled = st.settled ∧
    (ghostRelaxEdge mode u d st e).dist u = st.dist u := by
  rcases ghostRelaxEdge_cases mode u d st e with ⟨hni, heq⟩ | ⟨himp, heq⟩
  · rw [heq]
    refine ⟨⟨hinv.dist0, hinv.pqNodes, hinv.pqGe, hinv.pqWitness,
      hinv.settledNodes, hinv.settledFin, hinv.settledOpt, ?_, hinv.chain⟩,
      rfl, rfl⟩
    intro x hx e' he' hcond
    by_cases hsp : x = u ∧ e' = e
    · obtain ⟨hxu, hee⟩ := hsp
      subst hxu
      subst hee
      have hle := not_lt.mp hni
      rw [hdu, ← WithTop.coe_add]
      exact hle
    · refine hinv.relaxedR x hx e' he' ?_
      intro hxu hmem
      rcases List.mem_cons.mp hmem with h | h
      · exact hsp ⟨hxu, h⟩
      · exact hcond hxu h
  · have hout := mem_out_edges hsi he
    have heg : e ∈ g.edges := hout.1
    have hesrc : e.source.id = u := hout.2
    have hvN : e.destination.id ∈ nodeIds g := edge_dest_mem hsi heg
    have hw : 0 ≤ getEdgeWeight e mode := getEdgeWeight_nonneg hnn heg mode
    have huN : u ∈ nodeIds g := hinv.settledNodes u hu
    obtain ⟨pu, hpu, hpuScore, hpuChain, hpuNodup, hpuDrop⟩ :=
      hinv.chain u huN (by rw [hdu]; exact WithTop.coe_ne_top)
    have hd : d = pathScore mode pu := by
      rw [hdu] at hpuScore
      exact_mod_cast hpuScore
    have hpathV : EdgePath g s e.destination.id (pu ++ [e]) :=
      EdgePath.append hpu (EdgePath.cons heg hesrc (EdgePath.nil _))
    have hscoreV : pathScore mode (pu ++ [e]) = d + getEdgeWeight e mode := by
      rw [pathScore_append, pathScore_cons, pathScore_nil, add_zero, hd]
    have hvns : e.destination.id ∉ st.settled := by
      intro hv
      have hle := hinv.settledOpt _ hv (pu ++ [e]) hpathV
      rw [hscoreV] at hle
      exact absurd (lt_of_lt_of_le himp hle) (lt_irrefl _)
    have hvu : e.destination.id ≠ u := fun hveq => hvns (hveq ▸ hu)
    have hvseq : e.destination.id ∉ nodeSeq s pu := by
      intro hv
      rw [nodeSeq_decomp hpu] at hv
      rcases List.mem_append.mp hv with h | h
      · exact hvns (hpuDrop _ h)
      · exact hvu (List.mem_singleton.mp h)
    have hvs : e.destination.id ≠ s := by
      intro hveq
      have hd0 : 0 ≤ d := by
        rw [hd]
        exact pathScore_nonneg hnn mode hpu
      have hlt : ((d + getEdgeWeight e mode : ℚ) : WithTop ℚ) <
          ((0 : ℚ) : WithTop ℚ) := by
        calc ((d + getEdgeWeight e mode : ℚ) : WithTop ℚ)
            < st.dist e.destination.id := himp
          _ = st.dist s := by rw [hveq]
          _ ≤ ((0 : ℚ) : WithTop ℚ) := hinv.dist0
      have := WithTop.coe_lt_coe.mp hlt
      linarith
    rw [heq]
    refine ⟨⟨?_, ?_, ?_, ?_, ?_, ?_, ?_, ?_, ?_⟩,
      improveState_settled _ _ _ _ _, ?_⟩
    · rw [improveState_dist, if_neg (fun h => hvs h.symm)]
      exact hinv.dist0
    · intro pr hpr
      rw [improveState_pq] at hpr
      rcases List.mem_append.mp hpr with h | h
      · exact hinv.pqNodes pr h
      · rw [List.mem_singleton.mp h]
        exact hvN
    · intro pr hpr
      rw [improveState_pq] at hpr
      rcases List.mem_append.mp hpr with h | h
      · calc (improveState mode u d st e).dist pr.1 ≤ st.dist pr.1 := by
              rw [← heq]
              exact ghostRelaxEdge_dist_mono mode u d st e pr.1
          _ ≤ ((pr.2 : ℚ) : WithTop ℚ) := hinv.pqGe pr h
      · rw [List.mem_singleton.mp h]
        rw [improveState_dist, if_pos rfl]
    · intro v hvN' hvset hvfin
      rw [improveState_settled] at hvset
      by_cases hveq : v = e.destination.id
      · subst hveq
        refine ⟨d + getEdgeWeight e mode, ?_, ?_⟩
        · rw [improveState_dist, if_pos rfl]
        · rw [improveState_pq]
          exact List.mem_append_right _ (List.mem_singleton_self _)
      · rw [improveState_dist, if_neg hveq] at hvfin
        obtain ⟨dv, hdv, hmem⟩ := hinv.pqWitness v hvN' hvset hvfin
        refine ⟨dv, ?_, ?_⟩
        · rw [improveState_dist, if_neg hveq]
          exact hdv
        · rw [improveState_pq]
          exact List.mem_append_left _ hmem
    · intro v hv
      rw [improveState_settled] at hv
      exact hinv.settledNodes v hv
    · intro v hv
      rw [improveState_settled] at hv
      have hvv : ¬ v = e.destination.id := fun h => hvns (h ▸ hv)
      rw [improveState_dist, if_neg hvv]
      exact hinv.settledFin v hv
    · intro v hv q hq
      rw [improveState_settled] at hv
      have hvv : ¬ v = e.destination.id := fun h => hvns (h ▸ hv)
      rw [improveState_dist, if_neg hvv]
      exact hinv.settledOpt v hv q hq
    · intro x hx e' he' hcond
      rw [improveState_settled] at hx
      have hxv : ¬ x = e.destination.id := fun h => hvns (h ▸ hx)
      by_cases hsp : x = u ∧ e' = e
      · obtain ⟨hxu, hee⟩ := hsp
        subst hxu
        subst hee
        rw [improveState_dist, if_pos rfl, improveState_dist, if_neg hxv,
          hdu, ← WithTop.coe_add]
      · have hcond' : x = u → e' ∉ e :: rem := by
          intro hxu hmem
          rcases List.mem_cons.mp hmem with h | h
          · exact hsp ⟨hxu, h⟩
          · exact hcond hxu h
        have hold := hinv.relaxedR x hx e' he' hcond'
        have hdx : (improveState mode u d st e).dist x = st.dist x := by
          rw [improveState_dist, if_neg hxv]
        rw [hdx]
        calc (improveState mode u d st e).dist e'.destination.id
            ≤ st.dist e'.destination.id := by
              rw [← heq]
              exact ghostRelaxEdge_dist_mono mode u d st e _
          _ ≤ st.dist x + ((getEdgeWeight e' mode : ℚ) : WithTop ℚ) := hold
    · intro w hwN hwfin
      by_cases hweq : w = e.destination.id
      · subst hweq
        refine ⟨pu ++ [e], hpathV, ?_, ?_, ?_, ?_⟩
        · rw [improveState_dist, if_pos rfl, hscoreV]
        · rw [nodeSeq_concat]
          apply List.chain'_append.mpr
          refine ⟨?_, List.chain'_singleton _, ?_⟩
          · exact chain_update hvseq hpuChain
          · intro x hx y hy
            have hx2 : (nodeSeq s pu).getLast? = some x := hx
            rw [nodeSeq_getLast? hpu] at hx2
            injection hx2 with hx2
            have hy2 : some e.destination.id = some y := hy
            injection hy2 with hy2
            subst hy2
            rw [improveState_pred, if_pos rfl, hx2]
        · rw [nodeSeq_concat, List.nodup_append]
          refine ⟨hpuNodup, List.nodup_singleton _, ?_⟩
          intro a ha hb
          rw [List.mem_singleton] at hb
          subst hb
          exact hvseq ha
        · rw [nodeSeq_concat, List.dropLast_concat]
          intro x hx
          rw [improveState_settled]
          rw [nodeSeq_decomp hpu] at hx
          rcases List.mem_append.mp hx with h | h
          · exact hpuDrop x h
          · rw [List.mem_singleton.mp h]
            exact hu
      · have hwfin' : st.dist w ≠ ⊤ := by
          rw [improveState_dist, if_neg hweq] at hwfin
          exact hwfin
        obtain ⟨q, hq1, hq2, hq3, hq4, hq5⟩ := hinv.chain w hwN hwfin'
        have hvnq : e.destination.id ∉ nodeSeq s q := by
          intro hvq
          rw [nodeSeq_decomp hq1] at hvq
          rcases List.mem_append.mp hvq with h | h
          · exact hvns (hq5 _ h)
          · exact hweq (List.mem_singleton.mp h).symm
        refine ⟨q, hq1, ?_, ?_, hq4, ?_⟩
        · rw [improveState_dist, if_neg hweq]
          exact hq2
        · exact chain_update hvnq hq3
        · intro x hx
          rw [improveState_settled]
          exact hq5 x hx
    · rw [improveState_dist, if_neg (fun h => hvu h.symm)]

/-- Folding the relaxation step over the settled node's edge list restores
the full invariant. -/
theorem relax_fold {g : Graph} {s : String} {mode : Nat} {u : String} {d : ℚ}
    (hsi : StoreInv g) (hnn : NonNegWeights g) (hs : s ∈ nodeIds g) :
    ∀ (es : List Edge) (st : GhostState),
      (∀ e ∈ es, e ∈ g.getOutgoingEdges u) →
      u ∈ st.settled → st.dist u = ((d : ℚ) : WithTop ℚ) →
      InvR g s mode u es st →
      InvR g s mode u [] (ghostRelaxAll mode u d st es) := by
  intro es
  induction es with
  | nil => exact fun st _ _ _ hinv => hinv
  | cons e t ih =>
    intro st hmem hu hdu hinv
    obtain ⟨hinv', hset, hdist⟩ :=
      relax_step hsi hnn hs hu hdu (hmem e (List.mem_cons_self _ _)) hinv
    rw [ghostRelaxAll_cons]
    refine ih _ (fun e' he' => hmem e' (List.mem_cons_of_mem _ he')) ?_ ?_ hinv'
    · rw [hset]
      exact hu
    · rw [hdist]
      exact hdu

/-- The termination measure of the search loop: queue length plus the total
length of the adjacency lists of unsettled keys. -/
def Phi (g : Graph) (st : GhostState) : Nat :=
  st.pq.length +
    ((g.adj.filter (fun p => ¬ p.1 ∈ st.settled)).map (fun p => p.2.length)).sum

/-- The adjacency entry length behind `getOutgoingEdges`. -/
theorem getOutgoingEdges_of_find? {g : Graph} {u : String} :
    (∀ p, g.adj.find? (fun p => p.1 = u) = some p →
      g.getOutgoingEdges u = p.2) ∧
    (g.adj.find? (fun p => p.1 = u) = none → g.getOutgoingEdges u = []) := by
  unfold Graph.getOutgoingEdges
  constructor
  · intro p hp
    rw [hp]
  · intro hp
    rw [hp]

/-- Settling a fresh key with an adjacency entry frees that entry's length
from the measure's sum. -/
theorem sum_filter_settle_some :
    ∀ (l : List (String × List Edge)) (u : String) (S : List String)
      (p0 : String × List Edge),
      (l.map Prod.fst).Nodup → u ∉ S →
      l.find? (fun p => p.1 = u) = some p0 →
      ((l.filter (fun p => ¬ p.1 ∈ S)).map (fun p => p.2.length)).sum =
      ((l.filter (fun p => ¬ p.1 ∈ u :: S)).map (fun p => p.2.length)).sum +
      p0.2.length := by
  intro l
  induction l with
  | nil =>
    intro u S p0 _ _ hfind
    cases hfind
  | cons a t ih =>
    intro u S p0 hk hu hfind
    rw [List.map_cons, List.nodup_cons] at hk
    by_cases hau : a.1 = u
    · have hfind' : (a :: t).find? (fun p => p.1 = u) = some a :=
        List.find?_cons_of_pos _ (decide_eq_true hau)
      rw [hfind'] at hfind
      injection hfind with hfind
      subst hfind
      have hkeep : (a :: t).filter (fun p => ¬ p.1 ∈ S) =
          a :: t.filter (fun p => ¬ p.1 ∈ S) := by
        rw [List.filter_cons, if_pos (by
          rw [hau]
          exact decide_eq_true hu)]
      have hdrop : (a :: t).filter (fun p => ¬ p.1 ∈ u :: S) =
          t.filter (fun p => ¬ p.1 ∈ u :: S) := by
        rw [List.filter_cons, if_neg (fun hb => (of_decide_eq_true hb) (by
          rw [hau]
          exact List.mem_cons_self _ _))]
      rw [hkeep, hdrop, List.map_cons, List.sum_cons]
      have hcongr : t.filter (fun p => ¬ p.1 ∈ S) =
          t.filter (fun p => ¬ p.1 ∈ u :: S) := by
        apply List.filter_congr
        intro p hp
        have hpu : ¬ p.1 = u := by
          intro hpu
          apply hk.1
          rw [hau, ← hpu]
          exact List.mem_map.mpr ⟨p, hp, rfl⟩
        apply decide_eq_decide.mpr
        rw [List.mem_cons]
        constructor
        · intro h hs'
          rcases hs' with h1 | h2
          · exact hpu h1
          · exact h h2
        · intro h hs'
          exact h (Or.inr hs')
      rw [hcongr]
      omega
    · have hfind' : (a :: t).find? (fun p => p.1 = u) =
          t.find? (fun p => p.1 = u) :=
        List.find?_cons_of_neg _ (fun hb => hau (of_decide_eq_true hb))
      rw [hfind'] at hfind
      have hcond : (¬ a.1 ∈ u :: S) ↔ (¬ a.1 ∈ S) := by
        rw [List.mem_cons]
        constructor
        · intro h hs'
          exact h (Or.inr hs')
        · intro h hs'
          rcases hs' with h1 | h2
          · exact hau h1
          · exact h h2
      by_cases haS : a.1 ∈ S
      · have h1 : (a :: t).filter (fun p => ¬ p.1 ∈ S) =
            t.filter (fun p => ¬ p.1 ∈ S) := by
          rw [List.filter_cons, if_neg (fun hb => (of_decide_eq_true hb) haS)]
        have h2 : (a :: t).filter (fun p => ¬ p.1 ∈ u :: S) =
            t.filter (fun p => ¬ p.1 ∈ u :: S) := by
          rw [List.filter_cons, if_neg (fun hb =>
            (of_decide_eq_true hb) (List.mem_cons_of_mem _ haS))]
        rw [h1, h2]
        exact ih u S p0 hk.2 hu hfind
      · have h1 : (a :: t).filter (fun p => ¬ p.1 ∈ S) =
            a :: t.filter (fun p => ¬ p.1 ∈ S) := by
          rw [List.filter_cons, if_pos (decide_eq_true haS)]
        have h2 : (a :: t).filter (fun p => ¬ p.1 ∈ u :: S) =
            a :: t.filter (fun p => ¬ p.1 ∈ u :: S) := by
          rw [List.filter_cons, if_pos (decide_eq_true (hcond.mpr haS))]
        rw [h1, h2, List.map_cons, List.sum_cons, List.map_cons, List.sum_cons]
        have := ih u S p0 hk.2 hu hfind
        omega

/-- Settling a key without an adjacency entry leaves the measure's sum
unchanged. -/
theorem sum_filter_settle_none :
    ∀ (l : List (String × List Edge)) (u : String) (S : List String),
      l.find? (fun p => p.1 = u) = none →
      ((l.filter (fun p => ¬ p.1 ∈ S)).map (fun p => p.2.length)).sum =
      ((l.filter (fun p => ¬ p.1 ∈ u :: S)).map (fun p => p.2.length)).sum := by
  intro l
  induction l with
  | nil =>
    intro u S _
    rfl
  | cons a t ih =>
    intro u S hfind
    rw [List.find?_cons] at hfind
    have hau : ¬ a.1 = u := by
      intro hau
      rw [decide_eq_true hau] at hfind
      cases hfind
    have hfind' : t.find? (fun p => p.1 = u) = none := by
      rw [decide_eq_false hau] at hfind
      exact hfind
    have hcond : (¬ a.1 ∈ u :: S) ↔ (¬ a.1 ∈ S) := by
      rw [List.mem_cons]
      constructor
      · intro h hs'
        exact h (Or.inr hs')
      · intro h hs'
        rcases hs' with h1 | h2
        · exact hau h1
        · exact h h2
    by_cases haS : a.1 ∈ S
    · have h1 : (a :: t).filter (fun p => ¬ p.1 ∈ S) =
          t.filter (fun p => ¬ p.1 ∈ S) := by
        rw [List.filter_cons, if_neg (fun hb => (of_decide_eq_true hb) haS)]
      have h2 : (a :: t).filter (fun p => ¬ p.1 ∈ u :: S) =
          t.filter (fun p => ¬ p.1 ∈ u :: S) := by
        rw [List.filter_cons, if_neg (fun hb =>
          (of_decide_eq_true hb) (List.mem_cons_of_mem _ haS))]
      rw [h1, h2]
      exact ih u S hfind'
    · have h1 : (a :: t).filter (fun p => ¬ p.1 ∈ S) =
          a :: t.filter (fun p => ¬ p.1 ∈ S) := by
        rw [List.filter_cons, if_pos (decide_eq_true haS)]
      have h2 : (a :: t).filter (fun p => ¬ p.1 ∈ u :: S) =
          a :: t.filter (fun p => ¬ p.1 ∈ u :: S) := by
        rw [List.filter_cons, if_pos (decide_eq_true (hcond.mpr haS))]
      rw [h1, h2, List.map_cons, List.sum_cons, List.map_cons, List.sum_cons,
        ih u S hfind']

/-- A filter over a membership-equivalent settled list is unchanged. -/
theorem filter_settled_congr (l : List (String × List Edge)) {S T : List String}
    (h : ∀ x, x ∈ S ↔ x ∈ T) :
    l.filter (fun p => ¬ p.1 ∈ S) = l.filter (fun p => ¬ p.1 ∈ T) := by
  apply List.filter_congr
  intro p _
  exact decide_eq_decide.mpr (not_congr (h p.1))

/-- The search loop on an empty queue. -/
theorem ghostLoop_pop_none {g : Graph} {dest : String} {mode : Nat} {f : Nat}
    {st : GhostState} (hpop : popMin st.pq = none) :
    ghostLoop g dest mode (f + 1) st = st := by
  have h : ghostLoop g dest mode (f + 1) st =
      (match popMin st.pq with
      | none => st
      | some ((u, d), rest) =>
        if u = dest then { st with pq := rest, done := true }
        else if (d : WithTop ℚ) > st.dist u then
          ghostLoop g dest mode f { st with pq := rest }
        else
          ghostLoop g dest mode f
            (ghostRelaxAll mode u d
              { st with pq := rest, settled := u :: st.settled }
              (g.getOutgoingEdges u))) := rfl
  rw [h, hpop]

/-- The search loop breaking on the destination. -/
theorem ghostLoop_break {g : Graph} {dest : String} {mode : Nat} {f : Nat}
    {st : GhostState} {u : String} {d : ℚ} {rest : List (String × ℚ)}
    (hpop : popMin st.pq = some ((u, d), rest)) (hud : u = dest) :
    ghostLoop g dest mode (f + 1) st = { st with pq := rest, done := true } := by
  have h : ghostLoop g dest mode (f + 1) st =
      (match popMin st.pq with
      | none => st
      | some ((u, d), rest) =>
        if u = dest then { st with pq := rest, done := true }
        else if (d : WithTop ℚ) > st.dist u then
          ghostLoop g dest mode f { st with pq := rest }
        else
          ghostLoop g dest mode f
            (ghostRelaxAll mode u d
              { st with pq := rest, settled := u :: st.settled }
              (g.getOutgoingEdges u))) := rfl
  rw [h, hpop]
  show (if u = dest then ({ st with pq := rest, done := true } : GhostState)
    else if (d : WithTop ℚ) > st.dist u then
      ghostLoop g dest mode f { st with pq := rest }
    else
      ghostLoop g dest mode f
        (ghostRelaxAll mode u d
          { st with pq := rest, settled := u :: st.settled }
          (g.getOutgoingEdges u))) = { st with pq := rest, done := true }
  rw [if_pos hud]

/-- The search loop skipping a stale entry. -/
theorem ghostLoop_stale {g : Graph} {dest : String} {mode : Nat} {f : Nat}
    {st : GhostState} {u : String} {d : ℚ} {rest : List (String × ℚ)}
    (hpop : popMin st.pq = some ((u, d), rest)) (hud : ¬ u = dest)
    (hst : (d : WithTop ℚ) > st.dist u) :
    ghostLoop g dest mode (f + 1) st =
      ghostLoop g dest mode f { st with pq := rest } := by
  have h : ghostLoop g dest mode (f + 1) st =
      (match popMin st.pq with
      | none => st
      | some ((u, d), rest) =>
        if u = dest then { st with pq := rest, done := true }
        else if (d : WithTop ℚ) > st.dist u then
          ghostLoop g dest mode f { st with pq := rest }
        else
          ghostLoop g dest mode f
            (ghostRelaxAll mode u d
              { st with pq := rest, settled := u :: st.settled }
              (g.getOutgoingEdges u))) := rfl
  rw [h, hpop]
  show (if u = dest then ({ st with pq := rest, done := true } : GhostState)
    else if (d : WithTop ℚ) > st.dist u then
      ghostLoop g dest mode f { st with pq := rest }
    else
      ghostLoop g dest mode f
        (ghostRelaxAll mode u d
          { st with pq := rest, settled := u :: st.settled }
          (g.getOutgoingEdges u))) = ghostLoop g dest mode f { st with pq := rest }
  rw [if_neg hud, if_pos hst]

/-- The search loop settling a fresh minimum. -/
theorem ghostLoop_settle {g : Graph} {dest : String} {mode : Nat} {f : Nat}
    {st : GhostState} {u : String} {d : ℚ} {rest : List (String × ℚ)}
    (hpop : popMin st.pq = some ((u, d), rest)) (hud : ¬ u = dest)
    (hst : ¬ (d : WithTop ℚ) > st.dist u) :
    ghostLoop g dest mode (f + 1) st =
      ghostLoop g dest mode f
        (ghostRelaxAll mode u d
          { st with pq := rest, settled := u :: st.settled }
          (g.getOutgoingEdges u)) := by
  have h : ghostLoop g dest mode (f + 1) st =
      (match popMin st.pq with
      | none => st
      | some ((u, d), rest) =>
        if u = dest then { st with pq := rest, done := true }
        else if (d : WithTop ℚ) > st.dist u then
          ghostLoop g dest mode f { st with pq := rest }
        else
          ghostLoop g dest mode f
            (ghostRelaxAll mode u d
              { st with pq := rest, settled := u :: st.settled }
              (g.getOutgoingEdges u))) := rfl
  rw [h, hpop]
  show (if u = dest then ({ st with pq := rest, done := true } : GhostState)
    else if (d : WithTop ℚ) > st.dist u then
      ghostLoop g dest mode f { st with pq := rest }
    else
      ghostLoop g dest mode f
        (ghostRelaxAll mode u d
          { st with pq := rest, settled := u :: st.settled }
          (g.getOutgoingEdges u))) =
    ghostLoop g dest mode f
      (ghostRelaxAll mode u d
        { st with pq := rest, settled := u :: st.settled }
        (g.getOutgoingEdges u))
  rw [if_neg hud, if_neg hst]

/-- A pop alone lowers the measure by one. -/
theorem Phi_stale {g : Graph} {st : GhostState} {u : String} {d : ℚ}
    {rest : List (String × ℚ)} (hpop : popMin st.pq = some ((u, d), rest)) :
    Phi g { st with pq := rest } + 1 = Phi g st := by
  have hlen : st.pq.length = rest.length + 1 := by
    rw [(popMin_perm hpop).length_eq, List.length_cons]
  show rest.length +
      ((g.adj.filter (fun p => ¬ p.1 ∈ st.settled)).map
        (fun p => p.2.length)).sum + 1 =
    st.pq.length +
      ((g.adj.filter (fun p => ¬ p.1 ∈ st.settled)).map
        (fun p => p.2.length)).sum
  omega

/-- Re-settling an already settled key lowers the measure by one. -/
theorem Phi_resettle {g : Graph} {st : GhostState} {u : String} {d : ℚ}
    {rest : List (String × ℚ)} (hpop : popMin st.pq = some ((u, d), rest))
    (hu : u ∈ st.settled) :
    Phi g { st with pq := rest, settled := u :: st.settled } + 1 = Phi g st := by
  have hlen : st.pq.length = rest.length + 1 := by
    rw [(popMin_perm hpop).length_eq, List.length_cons]
  have hcongr : g.adj.filter (fun p => ¬ p.1 ∈ u :: st.settled) =
      g.adj.filter (fun p => ¬ p.1 ∈ st.settled) := by
    apply filter_settled_congr
    intro x
    constructor
    · intro hx
      rcases List.mem_cons.mp hx with h | h
      · rw [h]
        exact hu
      · exact h
    · exact List.mem_cons_of_mem _
  show rest.length +
      ((g.adj.filter (fun p => ¬ p.1 ∈ u :: st.settled)).map
        (fun p => p.2.length)).sum + 1 =
    st.pq.length +
      ((g.adj.filter (fun p => ¬ p.1 ∈ st.settled)).map
        (fun p => p.2.length)).sum
  rw [hcongr]
  omega

/-- Settling a fresh key strictly lowers the measure even after its pushes. -/
theorem Phi_settle {g : Graph} {st : GhostState} {u : String} {d : ℚ}
    {rest : List (String × ℚ)} (mode : Nat)
    (hadj : (g.adj.map Prod.fst).Nodup)
    (hpop : popMin st.pq = some ((u, d), rest)) (hu : u ∉ st.settled) :
    Phi g (ghostRelaxAll mode u d
      { st with pq := rest, settled := u :: st.settled }
      (g.getOutgoingEdges u)) < Phi g st := by
  have hlen : st.pq.length = rest.length + 1 := by
    rw [(popMin_perm hpop).length_eq, List.length_cons]
  have hpq2 : (ghostRelaxAll mode u d
      { st with pq := rest, settled := u :: st.settled }
      (g.getOutgoingEdges u)).pq.length ≤
      rest.length + (g.getOutgoingEdges u).length :=
    ghostRelaxAll_pq_len mode u d (g.getOutgoingEdges u) _
  have hset2 : (ghostRelaxAll mode u d
      { st with pq := rest, settled := u :: st.settled }
      (g.getOutgoingEdges u)).settled = u :: st.settled := by
    rw [ghostRelaxAll_settled]
  have hsum : ((g.adj.filter (fun p => ¬ p.1 ∈ st.settled)).map
        (fun p => p.2.length)).sum =
      ((g.adj.filter (fun p => ¬ p.1 ∈ u :: st.settled)).map
        (fun p => p.2.length)).sum + (g.getOutgoingEdges u).length := by
    cases hfind : g.adj.find? (fun p => p.1 = u) with
    | some p0 =>
      have hout : g.getOutgoingEdges u = p0.2 :=
        getOutgoingEdges_of_find?.1 p0 hfind
      rw [hout]
      exact sum_filter_settle_some g.adj u st.settled p0 hadj hu hfind
    | none =>
      have hout : g.getOutgoingEdges u = [] :=
        getOutgoingEdges_of_find?.2 hfind
      rw [hout, List.length_nil, Nat.add_zero]
      exact sum_filter_settle_none g.adj u st.settled hfind
  unfold Phi
  rw [hset2]
  omega

/-- Re-settling an already settled key preserves the invariant. -/
theorem Inv_resettle {g : Graph} {s : String} {mode : Nat} {st : GhostState}
    {u : String} {d : ℚ} {rest : List (String × ℚ)}
    (hinv : Inv g s mode st) (hpop : popMin st.pq = some ((u, d), rest))
    (hu : u ∈ st.settled) :
    Inv g s mode { st with pq := rest, settled := u :: st.settled } := by
  have hperm := popMin_perm hpop
  have hmemrest : ∀ pr ∈ rest, pr ∈ st.pq :=
    fun pr hpr => hperm.mem_iff.mpr (List.mem_cons_of_mem _ hpr)
  have hmm : ∀ x, x ∈ u :: st.settled → x ∈ st.settled := by
    intro x hx
    rcases List.mem_cons.mp hx with h | h
    · rw [h]
      exact hu
    · exact h
  refine ⟨hinv.dist0, ?_, ?_, ?_, ?_, ?_, ?_, ?_, ?_⟩
  · exact fun pr hpr => hinv.pqNodes pr (hmemrest pr hpr)
  · exact fun pr hpr => hinv.pqGe pr (hmemrest pr hpr)
  · intro v hvN hvset hvfin
    have hvu : v ≠ u := fun h => hvset (h ▸ List.mem_cons_self _ _)
    have hvset' : v ∉ st.settled := fun h => hvset (List.mem_cons_of_mem _ h)
    obtain ⟨dv, hdv, hmem⟩ := hinv.pqWitness v hvN hvset' hvfin
    refine ⟨dv, hdv, ?_⟩
    rcases List.mem_cons.mp (hperm.mem_iff.mp hmem) with heq | h
    · injection heq with h1 h2
      exact absurd h1 hvu
    · exact h
  · exact fun v hv => hinv.settledNodes v (hmm v hv)
  · exact fun v hv => hinv.settledFin v (hmm v hv)
  · exact fun v hv q hq => hinv.settledOpt v (hmm v hv) q hq
  · exact fun x hx e he => hinv.relaxed x (hmm x hx) e he
  · intro v hvN hvfin
    obtain ⟨p, h1, h2, h3, h4, h5⟩ := hinv.chain v hvN hvfin
    exact ⟨p, h1, h2, h3, h4, fun x hx => List.mem_cons_of_mem _ (h5 x hx)⟩

/-- The instrumented loop, run with enough fuel from an invariant state,
certifies every finite recorded distance by a predecessor chain and makes
the destination's recorded distance optimal. -/
theorem ghostLoop_post {g : Graph} {s dest : String} {mode : Nat}
    (hsi : StoreInv g) (hnn : NonNegWeights g) (hs : s ∈ nodeIds g)
    (hd : dest ∈ nodeIds g) :
    ∀ (fuel : Nat) (st : GhostState), Inv g s mode st → st.done = false →
      Phi g st < fuel →
      (∀ v ∈ nodeIds g, (ghostLoop g dest mode fuel st).dist v ≠ ⊤ →
        ChainProp g s mode (ghostLoop g dest mode fuel st) v) ∧
      ((ghostLoop g dest mode fuel st).dist dest ≠ ⊤ →
        ∀ p, EdgePath g s dest p →
          (ghostLoop g dest mode fuel st).dist dest ≤
            ((pathScore mode p : ℚ) : WithTop ℚ)) := by
  have hadj : (g.adj.map Prod.fst).Nodup := by
    rw [hsi.2.2.1]
    exact hsi.1
  intro fuel
  induction fuel with
  | zero =>
    intro st _ _ hphi
    exact absurd hphi (Nat.not_lt_zero _)
  | succ f ih =>
    intro st hinv hdone hphi
    cases hpop : popMin st.pq with
    | none =>
      rw [ghostLoop_pop_none hpop]
      constructor
      · exact fun v hvN hvfin => hinv.chain v hvN hvfin
      · intro hfin p hp
        have hpq : st.pq = [] := popMin_eq_none hpop
        by_cases hset : dest ∈ st.settled
        · exact hinv.settledOpt dest hset p hp
        · obtain ⟨dv, -, hmem⟩ := hinv.pqWitness dest hd hset hfin
          rw [hpq] at hmem
          cases hmem
    | some pd =>
      obtain ⟨⟨u, d⟩, rest⟩ := pd
      by_cases hud : u = dest
      · rw [ghostLoop_break hpop hud]
        constructor
        · intro v hvN hvfin
          obtain ⟨p, h1, h2, h3, h4, h5⟩ := hinv.chain v hvN hvfin
          exact ⟨p, h1, h2, h3, h4, h5⟩
        · intro hfin p hp
          subst hud
          exact pop_optimal hsi hnn hs hinv hpop p hp
      · by_cases hst : (d : WithTop ℚ) > st.dist u
        · rw [ghostLoop_stale hpop hud hst]
          have hphi' : Phi g { st with pq := rest } < f := by
            have := Phi_stale (g := g) hpop
            omega
          exact ih _ (stale_inv hinv hpop hst) hdone hphi'
        · have hdu : st.dist u = ((d : ℚ) : WithTop ℚ) :=
            le_antisymm
              (hinv.pqGe (u, d)
                ((popMin_perm hpop).mem_iff.mpr (List.mem_cons_self _ _)))
              (not_lt.mp hst)
          rw [ghostLoop_settle hpop hud hst]
          by_cases hmem : u ∈ st.settled
          · have hid : ghostRelaxAll mode u d
                { st with pq := rest, settled := u :: st.settled }
                (g.getOutgoingEdges u) =
                { st with pq := rest, settled := u :: st.settled } := by
              apply ghostRelaxAll_id
              intro e he
              apply not_lt.mpr
              have hrel := hinv.relaxed u hmem e he
              rw [hdu] at hrel
              show st.dist e.destination.id ≤
                ((d + getEdgeWeight e mode : ℚ) : WithTop ℚ)
              rw [WithTop.coe_add]
              exact hrel
            rw [hid]
            have hphi' : Phi g
                { st with pq := rest, settled := u :: st.settled } < f := by
              have := Phi_resettle (g := g) hpop hmem
              omega
            exact ih _ (Inv_resettle hinv hpop hmem) hdone hphi'
          · have hIR := settle_inv hsi hnn hs hinv hpop hdu
            have hIR2 := relax_fold hsi hnn hs (g.getOutgoingEdges u)
              { st with pq := rest, settled := u :: st.settled }
              (fun e he => he) (List.mem_cons_self _ _) hdu hIR
            have hdone2 : (ghostRelaxAll mode u d
                { st with pq := rest, settled := u :: st.settled }
                (g.getOutgoingEdges u)).done = false := by
              rw [ghostRelaxAll_done]
              exact hdone
            have hphi' : Phi g (ghostRelaxAll mode u d
                { st with pq := rest, settled := u :: st.settled }
                (g.getOutgoingEdges u)) < f := by
              have := Phi_settle (g := g) mode hadj hpop hmem
              omega
            exact ih _ hIR2.toInv hdone2 hphi'

/-- The instrumented initial state. -/
def ghostInit (g : Graph) (s : String) : GhostState :=
  { dist := fun v =>
      if g.nodes.any (fun n => n.id = v) then
        (if v = s then ((0 : ℚ) : WithTop ℚ) else ⊤)
      else ((0 : ℚ) : WithTop ℚ),
    pred := fun _ => none,
    pq := [(s, 0)],
    settled := [],
    done := false }

theorem ghostInit_proj (g : Graph) (s : String) :
    (ghostInit g s).proj = initState g s := rfl

theorem ghostInit_dist_s (g : Graph) (s : String) :
    (ghostInit g s).dist s = ((0 : ℚ) : WithTop ℚ) := by
  show (if g.nodes.any (fun n => n.id = s) then
      (if s = s then ((0 : ℚ) : WithTop ℚ) else ⊤)
    else ((0 : ℚ) : WithTop ℚ)) = ((0 : ℚ) : WithTop ℚ)
  by_cases h : g.nodes.any (fun n => n.id = s)
  · rw [if_pos h, if_pos rfl]
  · rw [if_neg h]

theorem ghostInit_dist_other {g : Graph} {s v : String}
    (hvN : v ∈ nodeIds g) (hvs : ¬ v = s) :
    (ghostInit g s).dist v = ⊤ := by
  show (if g.nodes.any (fun n => n.id = v) then
      (if v = s then ((0 : ℚ) : WithTop ℚ) else ⊤)
    else ((0 : ℚ) : WithTop ℚ)) = ⊤
  rw [if_pos (nodeIds_any.mpr hvN), if_neg hvs]

/-- The invariant at the initial state. -/
theorem Inv_init {g : Graph} {s : String} (mode : Nat) (hs : s ∈ nodeIds g) :
    Inv g s mode (ghostInit g s) := by
  refine ⟨?_, ?_, ?_, ?_, ?_, ?_, ?_, ?_, ?_⟩
  · rw [ghostInit_dist_s]
  · intro pr hpr
    obtain rfl := List.mem_singleton.mp hpr
    exact hs
  · intro pr hpr
    obtain rfl := List.mem_singleton.mp hpr
    show (ghostInit g s).dist s ≤ ((0 : ℚ) : WithTop ℚ)
    rw [ghostInit_dist_s]
  · intro v hvN hvset hvfin
    by_cases hvs : v = s
    · subst hvs
      exact ⟨0, ghostInit_dist_s g v, List.mem_singleton_self _⟩
    · exact absurd (ghostInit_dist_other hvN hvs) hvfin
  · exact fun v hv => absurd hv (List.not_mem_nil v)
  · exact fun v hv => absurd hv (List.not_mem_nil v)
  · exact fun v hv => absurd hv (List.not_mem_nil v)
  · exact fun x hx => absurd hx (List.not_mem_nil x)
  · intro v hvN hvfin
    by_cases hvs : v = s
    · subst hvs
      refine ⟨[], EdgePath.nil v, ?_, ?_, ?_, ?_⟩
      · rw [ghostInit_dist_s, pathScore_nil]
      · exact List.chain'_singleton v
      · exact List.nodup_singleton v
      · intro x hx
        cases hx
    · exact absurd (ghostInit_dist_other hvN hvs) hvfin

/-- The chosen fuel exceeds the initial measure. -/
theorem Phi_init (g : Graph) (s : String) :
    Phi g (ghostInit g s) < searchFuel g := by
  have hfilter : g.adj.filter (fun p => ¬ p.1 ∈ ([] : List String)) = g.adj := by
    apply List.filter_eq_self.mpr
    intro p _
    exact decide_eq_true (List.not_mem_nil _)
  show 1 + ((g.adj.filter (fun p => ¬ p.1 ∈ ([] : List String))).map
      (fun p => p.2.length)).sum < searchFuel g
  rw [hfilter]
  unfold searchFuel adjTotal Graph.getNodeCount
  omega

/-- `findShortestPath` with its branching laid bare. -/
theorem findShortestPath_eq (g : Graph) (s d : String) (mode : Nat) :
    findShortestPath g s d mode =
      if (g.getNode s).isNone ∨ (g.getNode d).isNone then some emptyResult
      else if (dijkstraLoop g d mode (searchFuel g) (initState g s)).dist d = ⊤
        then some emptyResult
        else finishSearch g (reconstructPath (reconFuel g)
          (dijkstraLoop g d mode (searchFuel g) (initState g s)).pred s d) := rfl

/-- A key whose lookup is not `none` is present. -/
theorem getNode_isSome_mem {g : Graph} {k : String}
    (h : ¬ (g.getNode k).isNone = true) : k ∈ nodeIds g := by
  by_contra hk
  have h2 := (getNode_eq_none_iff g k).mpr hk
  rw [h2] at h
  exact h rfl

end PathFinder

/-- C1: for every well-formed store whose edges all have non-negative
weights and every optimization mode, if `findShortestPath` answers
`found = true` then its returned node sequence is realised by an edge path
from source to destination whose total per-edge score under that mode is at
most the score of every other source-to-destination path in the graph. -/
theorem C1_dijkstra_optimality (g : Graph) (s d : String) (mode : Nat)
    (r : PathResult) (hsi : StoreInv g) (hnn : PathFinder.NonNegWeights g)
    (h : PathFinder.findShortestPath g s d mode = some r) (hf : r.found = true) :
    ∃ ep, EdgePath g s d ep ∧ PathFinder.nodeSeq s ep = r.path ∧
      ∀ p, EdgePath g s d p →
        PathFinder.pathScore mode ep ≤ PathFinder.pathScore mode p := by
  open PathFinder in
  rw [PathFinder.findShortestPath_eq] at h
  by_cases h0 : (g.getNode s).isNone ∨ (g.getNode d).isNone
  · rw [if_pos h0] at h
    injection h with h
    rw [← h] at hf
    exact absurd hf (by decide)
  · rw [if_neg h0] at h
    push_neg at h0
    obtain ⟨hsN0, hdN0⟩ := h0
    have hsN : s ∈ PathFinder.nodeIds g := PathFinder.getNode_isSome_mem hsN0
    have hdN : d ∈ PathFinder.nodeIds g := PathFinder.getNode_isSome_mem hdN0
    have hproj : (PathFinder.ghostLoop g d mode (PathFinder.searchFuel g)
        (PathFinder.ghostInit g s)).proj =
        PathFinder.dijkstraLoop g d mode (PathFinder.searchFuel g)
          (PathFinder.initState g s) := by
      rw [PathFinder.ghostLoop_proj]
      rfl
    have hdist : (PathFinder.dijkstraLoop g d mode (PathFinder.searchFuel g)
        (PathFinder.initState g s)).dist =
        (PathFinder.ghostLoop g d mode (PathFinder.searchFuel g)
          (PathFinder.ghostInit g s)).dist := by
      rw [← hproj]
      rfl
    have hpred : (PathFinder.dijkstraLoop g d mode (PathFinder.searchFuel g)
        (PathFinder.initState g s)).pred =
        (PathFinder.ghostLoop g d mode (PathFinder.searchFuel g)
          (PathFinder.ghostInit g s)).pred := by
      rw [← hproj]
      rfl
    obtain ⟨hchainF, hoptF⟩ := PathFinder.ghostLoop_post hsi hnn hsN hdN
      (PathFinder.searchFuel g) (PathFinder.ghostInit g s)
      (PathFinder.Inv_init mode hsN) rfl (PathFinder.Phi_init g s)
    by_cases htop : (PathFinder.dijkstraLoop g d mode (PathFinder.searchFuel g)
        (PathFinder.initState g s)).dist d = ⊤
    · rw [if_pos htop] at h
      injection h with h
      rw [← h] at hf
      exact absurd hf (by decide)
    · rw [if_neg htop] at h
      have htopG : (PathFinder.ghostLoop g d mode (PathFinder.searchFuel g)
          (PathFinder.ghostInit g s)).dist d ≠ ⊤ := by
        rw [← congrFun hdist d]
        exact htop
      obtain ⟨ep, hep, hscore, hchainEp, hnodupEp, -⟩ := hchainF d hdN htopG
      have hsub : ∀ x ∈ PathFinder.nodeSeq s ep, x ∈ PathFinder.nodeIds g :=
        PathFinder.nodeSeq_subset hsi hep hsN
      have hlenN : (PathFinder.nodeSeq s ep).length ≤ PathFinder.reconFuel g := by
        have hsp : (PathFinder.nodeSeq s ep).Subperm (PathFinder.nodeIds g) :=
          List.Nodup.subperm hnodupEp hsub
        have hle := hsp.length_le
        have hid : (PathFinder.nodeIds g).length = g.getNodeCount :=
          List.length_map _ _
        unfold PathFinder.reconFuel
        omega
      have hne : PathFinder.nodeSeq s ep ≠ [] := by
        unfold PathFinder.nodeSeq
        exact List.cons_ne_nil _ _
      have hrecon : PathFinder.reconstructPath (PathFinder.reconFuel g)
          (PathFinder.ghostLoop g d mode (PathFinder.searchFuel g)
            (PathFinder.ghostInit g s)).pred s d = PathFinder.nodeSeq s ep :=
        PathFinder.recon_of_chain (PathFinder.nodeSeq s ep) hne rfl hnodupEp
          hchainEp d (PathFinder.nodeSeq_getLast? hep)
          (PathFinder.reconFuel g) hlenN
      rw [hpred, hrecon] at h
      unfold PathFinder.finishSearch at h
      rw [if_neg hne] at h
      injection h with h
      have hrpath : r.path = PathFinder.nodeSeq s ep := by
        rw [← h]
      refine ⟨ep, hep, hrpath.symm, ?_⟩
      intro p hp
      have h1 := hoptF htopG p hp
      rw [hscore] at h1
      exact_mod_cast h1

unseal Rat.add Rat.mul Rat.inv in
/-- Witness for `C1_dijkstra_optimality`: the Scenario A query. -/
theorem C1_dijkstra_optimality_witness :
    ∃ ep, EdgePath scenarioA "NYC" "DC" ep ∧
      PathFinder.nodeSeq "NYC" ep = scenarioAResult.path ∧
      ∀ p, EdgePath scenarioA "NYC" "DC" p →
        PathFinder.pathScore 0 ep ≤ PathFinder.pathScore 0 p :=
  C1_dijkstra_optimality scenarioA "NYC" "DC" 0 scenarioAResult
    (by decide) (by decide) (by decide) rfl
